import Mathlib

/-!
Verification model of the `remote-diff-tool` repository.

The Go sources are shallowly embedded in Lean:

* `internal/util` (archive codec: `GenerateCollectionScript`, `ExtractTarGz`,
  `CalculateSHA256`) — the path arithmetic of `path/filepath` (`Clean`, `Join`,
  `Dir`) is modelled character-faithfully over `List Char` (Go strings are byte
  strings; all paths handled here are ASCII, where bytes and chars coincide);
  filesystem writes become an explicit effect log.
* `internal/config` (the `Manifest` store) — Go maps become association lists
  with insert-or-replace update.
* `internal/analyze` (`compareSingleFile`, `getFilesToCompare`, `RunAnalysis`)
  — the external `diff` binary and `os.Stat` become oracle parameters.
* `internal/collect` (`collectFromServer`'s checksum walk, `RunCollection`) —
  the per-host outcome becomes an oracle; the concurrent fan-out is modelled by
  sequential accumulation of the per-task errors (the claims proved here do not
  depend on interleaving: each goroutine only appends an error to the buffered
  channel, and the channel is drained only after the barrier `wg.Wait()`).
* `internal/sshutil` (`Connect`) — dial/handshake outcomes per attempt become
  oracles; sleeps are logged.
-/

/-! ### Go strings and `path/filepath` (unix rules)

`GoStr` models a Go string as its character list. -/

abbrev GoStr := List Char

/-- Go `strings.Split(s, "/")`: the segments of `s` between `/` separators.
`splitSlash "" = [""]`, `splitSlash "/a" = ["", "a"]`, `splitSlash "a/" = ["a", ""]`. -/
def splitSlash : GoStr → List GoStr
  | [] => [[]]
  | c :: rest =>
    if c = '/' then [] :: splitSlash rest
    else
      match splitSlash rest with
      | [] => [[c]]
      | s :: ss => (c :: s) :: ss

/-- One element step of Go `filepath.Clean`'s scan: empty and `.` elements are
dropped; `..` pops the previous real element if there is one, is dropped at the
root of a rooted path, and is kept otherwise; any other element is appended. -/
def cleanStep (rooted : Bool) (out : List GoStr) (seg : GoStr) : List GoStr :=
  if seg = [] ∨ seg = ['.'] then out
  else if seg = ['.', '.'] then
    if out ≠ [] ∧ out.getLast? ≠ some ['.', '.'] then out.dropLast
    else if rooted then out else out ++ [['.', '.']]
  else out ++ [seg]

/-- The element-processing loop of Go `filepath.Clean`. -/
def cleanSegs (rooted : Bool) (segs : List GoStr) : List GoStr :=
  segs.foldl (cleanStep rooted) []

/-- Join segments with `/` (Go `strings.Join(segs, "/")`). -/
def intercSlash : List GoStr → GoStr
  | [] => []
  | [s] => s
  | s :: t :: rest => s ++ '/' :: intercSlash (t :: rest)

/-- Reassemble a cleaned path from its processed elements, as Go
`filepath.Clean` does: a rooted result keeps the leading `/`, an empty
non-rooted result becomes `"."`. -/
def joinSegs (rooted : Bool) (segs : List GoStr) : GoStr :=
  if rooted then '/' :: intercSlash segs
  else if segs = [] then ['.'] else intercSlash segs

/-- Whether a path is absolute (starts with `/`). -/
def isRooted (p : GoStr) : Bool := p.head? = some '/'

/-- Go `filepath.Clean` for unix paths, via split / element scan / reassembly
(equivalent to Go's in-place scan). `Clean "" = "."`. -/
def filepathClean (p : GoStr) : GoStr :=
  if p = [] then ['.']
  else joinSegs (isRooted p) (cleanSegs (isRooted p) (splitSlash p))

/-- Go `filepath.Join(a, b)` for two arguments: empty elements are skipped and
the rest is joined with `/` and cleaned. -/
def filepathJoin (a b : GoStr) : GoStr :=
  if a = [] then (if b = [] then [] else filepathClean b)
  else filepathClean (a ++ '/' :: b)

/-- Go `strings.HasPrefix s pre`. -/
def goHasPrefixL (s pre : GoStr) : Bool := pre.isPrefixOf s

/-- The characters of `p` up to and including its last `/` (empty if `p` has
no `/`): the slice `path[:i+1]` taken by Go `filepath.Dir`. -/
def takeToLastSlash (p : GoStr) : GoStr :=
  (p.reverse.dropWhile (· ≠ '/')).reverse

/-- Go `filepath.Dir` for unix paths: everything up to the final separator,
cleaned (`Dir` of a path without `/` is `"."`). -/
def filepathDir (p : GoStr) : GoStr := filepathClean (takeToLastSlash p)

/-- The canonical element list of a path: what `filepath.Clean`'s scan
produces for it. Together with `isRooted` this determines `filepathClean p`. -/
def canonSegs (p : GoStr) : List GoStr := cleanSegs (isRooted p) (splitSlash p)

/-- A path element containing no separator. -/
def slashFreeSeg (s : GoStr) : Prop := '/' ∉ s

/-- A path element that can appear in a cleaned path: non-empty, not `.`,
separator-free. -/
def NiceSeg (s : GoStr) : Prop := s ≠ [] ∧ s ≠ ['.'] ∧ slashFreeSeg s

/-- A concrete name element of a cleaned path (also not `..`). -/
def RealSeg (s : GoStr) : Prop := NiceSeg s ∧ s ≠ ['.', '.']

/-- The shape invariant of `filepath.Clean`'s output elements: a (possibly
empty) run of `..` (absent for rooted paths) followed by name elements. -/
def CanonList (rooted : Bool) (l : List GoStr) : Prop :=
  ∃ ds rs, l = ds ++ rs ∧ (∀ x ∈ ds, x = ['.', '.']) ∧ (∀ x ∈ rs, RealSeg x)
    ∧ (rooted = true → ds = [])

/-! ### `util.ExtractTarGz` (src/unnamed/part_002, lines 99-163)

The tar stream is modelled as the list of its entry headers; gzip decoding and
tar header parsing are outside the model (assumed well-formed), as are
`os.MkdirAll` / `os.OpenFile` failures (assumed to succeed). Filesystem writes
are recorded in an effect log. What is kept faithful: the order of entries and
effects, the path-sanitization check, the per-type behavior, and the fact that
a failing `io.Copy` has its error assigned to a variable that shadows the
outer `err` (the `if _, err := io.Copy(...)` inside the closure declares a new
`err`), so the outer `err` stays nil: the copy error is dropped, extraction
continues, and the partially written file is left in place with no
`os.Remove`. -/

/-- Tar entry type flag, as matched by the `switch header.Typeflag`. -/
inductive TarType
  | dir
  | reg
  | symlink
  | hardlink
  | other (c : Char)
deriving DecidableEq

/-- A tar entry header together with its environment bit `copyFails`: whether
the `io.Copy` of this entry's content into the target file fails mid-write
(meaningful only for regular files). -/
structure TarEntry where
  name : GoStr
  typeflag : TarType
  copyFails : Bool
deriving DecidableEq

/-- A filesystem write performed by the extractor. -/
inductive FsEffect
  | mkdirAll (path : GoStr)
  | createFile (path : GoStr)
deriving DecidableEq

/-- The path an effect touches. -/
def effectPath : FsEffect → GoStr
  | .mkdirAll p => p
  | .createFile p => p

/-- Result of an extraction run: the filesystem effects performed, in order,
and the error returned (`none` = nil). -/
structure ExtractResult where
  effects : List FsEffect
  error : Option GoStr
deriving DecidableEq

/-- The message of `fmt.Errorf("invalid file path in tar: %s", header.Name)`. -/
def invalidTarPathMsg (name : GoStr) : GoStr :=
  ("invalid file path in tar: ").data ++ name

/-- The filesystem effects of one accepted entry, by type flag: a directory
entry is `os.MkdirAll target`; a regular file entry is
`os.MkdirAll (filepath.Dir target)` then `os.OpenFile target O_CREATE|O_RDWR|O_TRUNC`;
symlinks, hardlinks and unknown types are logged as warnings and skipped. -/
def extractEntryEffects (target : GoStr) : TarType → List FsEffect
  | .dir => [.mkdirAll target]
  | .reg => [.mkdirAll (filepathDir target), .createFile target]
  | _ => []

/-- Model of `util.ExtractTarGz`: for each entry in order, the target is
`filepath.Join(dest, header.Name)`; if `Clean(dest) + "/"` is not a string
prefix of the target the loop returns
`fmt.Errorf("invalid file path in tar: %s", header.Name)`; otherwise the
entry's effects are performed. A regular entry whose `io.Copy` fails is NOT an
error exit in the source (the copy error lands in a shadowed variable), so
`copyFails` changes nothing here — exactly as in the code. -/
def extractTarGz : List TarEntry → GoStr → ExtractResult
  | [], _ => ⟨[], none⟩
  | e :: rest, dest =>
    let target := filepathJoin dest e.name
    if goHasPrefixL target (filepathClean dest ++ ['/']) then
      let res := extractTarGz rest dest
      ⟨extractEntryEffects target e.typeflag ++ res.effects, res.error⟩
    else
      ⟨[], some (invalidTarPathMsg e.name)⟩

/-- Specification-side notion used by claim C1: the resolved target path
`filepath.Join(dest, name)` escapes the destination directory `dest` when its
canonical elements do not strictly extend those of `dest` (it is not a proper
descendant of the destination). -/
def escapesDest (dest name : GoStr) : Prop :=
  ¬ (canonSegs dest <+: canonSegs (filepathJoin dest name)
      ∧ canonSegs dest ≠ canonSegs (filepathJoin dest name))

instance (dest name : GoStr) : Decidable (escapesDest dest name) := by
  unfold escapesDest; infer_instance

/-! ### The `Manifest` store (src/internal/analyze/analyze.go, lines 588-670,
`config` package)

Go maps are modelled as association lists with insert-or-replace update; the
list order stands in for the map's iteration order (the functions proved about
below either sort their output or are order-insensitive). The `sync.RWMutex`
is not modelled: every claim below is about the sequential semantics of one
operation, and each Go operation holds the lock for its whole body. -/

/-- First-match lookup in an association list (Go map read `m[k]`). -/
def alistLookup {β : Type} : List (String × β) → String → Option β
  | [], _ => none
  | (k', v) :: rest, k => if k' = k then some v else alistLookup rest k

/-- Insert-or-replace in an association list (Go map write `m[k] = v`). -/
def alistInsert {β : Type} : List (String × β) → String → β → List (String × β)
  | [], k, v => [(k, v)]
  | (k', v') :: rest, k, v =>
    if k' = k then (k, v) :: rest else (k', v') :: alistInsert rest k v

/-- `config.FileInfo`: relative path, SHA-256 checksum, error text. -/
structure FileInfo where
  path : String
  checksum : String
  error : String
deriving DecidableEq

/-- `config.Manifest`: server → relative path → FileInfo. -/
structure Manifest where
  filesByServer : List (String × List (String × FileInfo))
deriving DecidableEq

/-- `config.NewManifest()`. -/
def Manifest.new : Manifest := ⟨[]⟩

/-- `Manifest.AddFile`: ensure the server's sub-map exists, then upsert
`FileInfo{Path: relativePath, Checksum: checksum, Error: fileError}`. -/
def Manifest.addFile (m : Manifest) (server relativePath checksum fileError : String) :
    Manifest :=
  let serverFiles := (alistLookup m.filesByServer server).getD []
  ⟨alistInsert m.filesByServer server
      (alistInsert serverFiles relativePath ⟨relativePath, checksum, fileError⟩)⟩

/-- `Manifest.GetFileInfo`: the two-value Go map read, returning the zero
`FileInfo` and `false` when the server or the path is absent. -/
def Manifest.getFileInfo (m : Manifest) (server relativePath : String) :
    FileInfo × Bool :=
  match alistLookup m.filesByServer server with
  | none => (⟨"", "", ""⟩, false)
  | some serverFiles =>
    match alistLookup serverFiles relativePath with
    | none => (⟨"", "", ""⟩, false)
    | some info => (info, true)

/-- Well-formedness invariant of the Go-map model: each per-server sub-list
has pairwise-distinct keys (true of every Go map, and preserved by
`alistInsert`). -/
def Manifest.WF (m : Manifest) : Prop :=
  ∀ e ∈ m.filesByServer, (e.2.map Prod.fst).Nodup

instance (m : Manifest) : Decidable m.WF := by
  unfold Manifest.WF; infer_instance

/-! ### The analysis engine (src/internal/analyze/analyze.go, lines 21-354)

`compareSingleFile` and `getFilesToCompare` are embedded with two oracles for
the ambient system: `statExists` for `os.Stat` on a local path, and `diffRun`
for running `diff -u path1 path2` (exit 0 / exit 1 with output / other
error). The result channel send becomes the function's return value; the
number of `diff` invocations and the diff files written are logged so that
"never invokes the content-diff step" is a statement about the model. -/

/-- Outcome of running `diff -u path1 path2`: exit status 0 (identical),
exit status 1 with the unified diff on stdout (differing), or any other
failure of the command. -/
inductive DiffOutcome
  | sameExit
  | differExit (output : String)
  | execError (msg : String)

/-- Oracles for the ambient system used by `compareSingleFile`. -/
structure CompareEnv where
  statExists : String → Bool
  diffRun : String → String → DiffOutcome

/-- `analyze.fileComparisonResult`. -/
structure FileCompareResult where
  filePath : String
  isDiff : Bool
  diffs : List (String × String)
  errors : List String

/-- The local path
`filepath.Join(baseOutputDir, config.CollectedFilesBaseDir, "files-"+server, filepath.FromSlash(filePath))`
built by `compareSingleFile` (with `CollectedFilesBaseDir = "collected-files"`;
on unix `FromSlash` is the identity and `Join` is plain concatenation here
since every component is non-empty and already clean). -/
def localCollectedPath (baseOutputDir server filePath : String) : String :=
  baseOutputDir ++ "/collected-files/files-" ++ server ++ "/" ++ filePath

/-- State of `compareSingleFile`'s first loop over `servers`. -/
structure GatherState where
  checksums : List (String × String)
  filePaths : List (String × String)
  errorsFound : List String
  foundOnAll : Bool
  firstChecksum : String
  allMatch : Bool

/-- One iteration of `compareSingleFile`'s first loop (`for i, server :=
range servers`): a missing / error / empty-checksum record appends a message
and clears `foundOnAll`; otherwise the checksum and local path are recorded,
index 0 seeds `firstChecksum`, and a later mismatching checksum clears
`allMatch`. -/
def gatherStep (manifest : Manifest) (filePath baseOutputDir : String)
    (st : GatherState) (iserver : Nat × String) : GatherState :=
  let i := iserver.1
  let server := iserver.2
  let infoExists := manifest.getFileInfo server filePath
  let info := infoExists.1
  if infoExists.2 = false ∨ info.error ≠ "" ∨ info.checksum = "" then
    let msg :=
      if infoExists.2 = true ∧ info.error ≠ "" then
        "File " ++ filePath ++ " has error on server " ++ server ++ ": " ++ info.error
      else
        "File " ++ filePath ++ " not found or has error on server " ++ server
    { st with errorsFound := st.errorsFound ++ [msg], foundOnAll := false }
  else
    let st' := { st with
      checksums := alistInsert st.checksums server info.checksum,
      filePaths :=
        alistInsert st.filePaths server (localCollectedPath baseOutputDir server filePath) }
    if i = 0 then { st' with firstChecksum := info.checksum }
    else if info.checksum ≠ st'.firstChecksum then { st' with allMatch := false }
    else st'

/-- The ordered pairs visited by the nested loops
`for i := 0; ...; for j := i+1; ...` over `servers`. -/
def listPairs {α : Type} : List α → List (α × α)
  | [] => []
  | x :: xs => xs.map (fun y => (x, y)) ++ listPairs xs

/-- `strings.ReplaceAll(filePath, "/", "_")`. -/
def sanitizeSlashes (s : String) : String :=
  ⟨s.data.map (fun c => if c = '/' then '_' else c)⟩

/-- State of `compareSingleFile`'s pairwise diff loop, plus the
instrumentation: how many times `diff` ran and which diff files were
written. -/
structure DiffPhase where
  diffs : List (String × String)
  errors : List String
  diffCalls : Nat
  diffWrites : List String

/-- One pair iteration of the diff loop: a missing local file appends an
error; otherwise `diff -u` runs — exit 1 records the output under
`"s1_vs_s2"` (and writes the diff file when `saveDiffs` and `diffDir` is
non-empty), exit 0 only logs the checksum-contradiction warning, any other
failure appends an error. -/
def diffPairStep (env : CompareEnv) (filePath : String) (saveDiffs : Bool)
    (diffDir : String) (filePaths : List (String × String))
    (st : DiffPhase) (pair : String × String) : DiffPhase :=
  let server1 := pair.1
  let server2 := pair.2
  let path1 := (alistLookup filePaths server1).getD ""
  let path2 := (alistLookup filePaths server2).getD ""
  if env.statExists path1 = false then
    { st with errors := st.errors ++ ["Local file missing for diff: " ++ path1] }
  else if env.statExists path2 = false then
    { st with errors := st.errors ++ ["Local file missing for diff: " ++ path2] }
  else
    let st' := { st with diffCalls := st.diffCalls + 1 }
    match env.diffRun path1 path2 with
    | .differExit output =>
      let st'' := { st' with
        diffs := alistInsert st'.diffs (server1 ++ "_vs_" ++ server2) output }
      if saveDiffs = true ∧ diffDir ≠ "" then
        { st'' with diffWrites := st''.diffWrites ++
            [diffDir ++ "/" ++ sanitizeSlashes filePath ++ "__" ++ server1 ++ "_vs_"
              ++ server2 ++ ".diff"] }
      else st''
    | .sameExit => st'
    | .execError msg =>
      { st' with errors := st'.errors ++
          ["Error running diff for " ++ path1 ++ " vs " ++ path2 ++ ": " ++ msg] }

/-- Return value of the `compareSingleFile` model: the result sent on the
channel, plus the diff-invocation count and diff files written. -/
structure CompareOut where
  result : FileCompareResult
  diffCalls : Nat
  diffWrites : List String

/-- Model of `analyze.compareSingleFile`: gather checksums from the manifest;
if some server lacks a valid record, report `IsDiff = true` with the
collected errors; if all checksums match, report `IsDiff = false` without
running `diff`; otherwise run the pairwise diff loop. -/
def compareSingleFile (filePath : String) (servers : List String)
    (manifest : Manifest) (baseOutputDir : String) (saveDiffs : Bool)
    (diffDir : String) (env : CompareEnv) : CompareOut :=
  let st := servers.enum.foldl (gatherStep manifest filePath baseOutputDir)
    ⟨[], [], [], true, "", true⟩
  if st.foundOnAll = false then
    ⟨⟨filePath, true, [], st.errorsFound⟩, 0, []⟩
  else if st.allMatch = true then
    ⟨⟨filePath, false, [], st.errorsFound⟩, 0, []⟩
  else
    let d := (listPairs servers).foldl
      (diffPairStep env filePath saveDiffs diffDir st.filePaths)
      ⟨[], st.errorsFound, 0, []⟩
    ⟨⟨filePath, true, d.diffs, d.errors⟩, d.diffCalls, d.diffWrites⟩

/-- A server has a usable record for `filePath` with checksum `c`: the
condition under which `compareSingleFile`'s gather loop takes its
else-branch with checksum `c`. -/
def validRecordWith (m : Manifest) (server filePath c : String) : Prop :=
  (m.getFileInfo server filePath).2 = true
  ∧ (m.getFileInfo server filePath).1.error = ""
  ∧ (m.getFileInfo server filePath).1.checksum = c

instance (m : Manifest) (server filePath c : String) :
    Decidable (validRecordWith m server filePath c) := by
  unfold validRecordWith; infer_instance

/-- Whether `server` contributes `filePath` to the tally of
`getFilesToCompare`: it is in the manifest and its sub-map has an entry for
`filePath` with `Error == ""`. -/
def serverHasValid (m : Manifest) (server filePath : String) : Bool :=
  match alistLookup m.filesByServer server with
  | none => false
  | some sf => sf.any (fun e => e.1 == filePath && e.2.error == "")

/-- Add `k` occurrences to an optional tally entry (`none` = key absent). -/
def addCnt (o : Option Nat) (k : Nat) : Option Nat :=
  if k = 0 then o else some (o.getD 0 + k)

/-- Bump `fileCounts[filePath]++` on a Go map modelled as an association
list. -/
def bumpCount (counts : List (String × Nat)) (k : String) : List (String × Nat) :=
  match alistLookup counts k with
  | none => alistInsert counts k 1
  | some n => alistInsert counts k (n + 1)

/-- Per-server tally step of `getFilesToCompare`: for every entry of the
server's sub-map with `Error == ""`, increment `fileCounts[path]` and put the
path into the `allFiles` set. A server absent from the manifest is skipped. -/
def tallyServer (manifest : Manifest)
    (acc : List (String × Nat) × List (String × Bool)) (server : String) :
    List (String × Nat) × List (String × Bool) :=
  match alistLookup manifest.filesByServer server with
  | none => acc
  | some serverFiles =>
    serverFiles.foldl
      (fun acc2 entry =>
        if entry.2.error = "" then
          (bumpCount acc2.1 entry.1, alistInsert acc2.2 entry.1 true)
        else acc2)
      acc

/-- Byte-wise lexicographic comparison of character lists, the order used by
Go `sort.Strings` (UTF-8 byte order and code-point order coincide). -/
def lexLe : List Char → List Char → Bool
  | [], _ => true
  | _ :: _, [] => false
  | a :: as, b :: bs => if a = b then lexLe as bs else decide (a < b)

/-- The `sort.Strings` order on `String`. -/
def strLe (a b : String) : Prop := lexLe a.data b.data = true

instance : DecidableRel strLe := fun a b =>
  inferInstanceAs (Decidable (lexLe a.data b.data = true))

/-- Model of `analyze.getFilesToCompare`: tally, per relative path, how many
of the configured servers have a record with `Error == ""`; keep the paths
whose count equals `len(servers)`; sort (`sort.Strings`). The insertion-sort
here models Go's comparison sort: both produce the unique `≤`-sorted
permutation of `commonFiles`. -/
def getFilesToCompare (servers : List String) (manifest : Manifest) : List String :=
  if servers.isEmpty then []
  else
    let tally := servers.foldl (tallyServer manifest) ([], [])
    let commonFiles := (tally.2.map Prod.fst).filter
      (fun fp => alistLookup tally.1 fp = some servers.length)
    List.insertionSort strLe commonFiles

/-- The per-path results collected from the result channel by
`analyze.RunAnalysis` step 4: one `compareSingleFile` result for each element
of `getFilesToCompare` (the bounded fan-out dispatches exactly these tasks;
channel arrival order is irrelevant to membership). -/
def runAnalysisResults (servers : List String) (manifest : Manifest)
    (baseOutputDir : String) (saveDiffs : Bool) (diffDir : String)
    (env : CompareEnv) : List FileCompareResult :=
  (getFilesToCompare servers manifest).map
    (fun fp => (compareSingleFile fp servers manifest baseOutputDir saveDiffs diffDir env).result)

/-! ### The collection pipeline (src/unnamed/part_001)

Only the parts the claims are about are embedded: the missing-marker handling
of the per-file checksum walk in `collectFromServer` (lines 127-156), and the
success / manifest-persistence logic of `RunCollection` (lines 185-240). The
SSH transport, script upload/execution and tarball download around them are
collapsed into the per-server outcome oracle of `RunCollection`. -/

/-- `strings.HasSuffix s suf` (byte-wise; ASCII here). -/
def goHasSuffix (s suf : String) : Bool := suf.data.isSuffixOf s.data

/-- `strings.TrimSuffix s suf`: drop `suf` from the end of `s` when present,
else return `s` unchanged. -/
def goTrimSuffix (s suf : String) : String :=
  if goHasSuffix s suf then ⟨s.data.take (s.data.length - suf.data.length)⟩ else s

/-- The marker test of the checksum walk:
`strings.HasSuffix(relativePath, ".MISSING") || strings.HasSuffix(relativePath, "DIRECTORY.MISSING")`. -/
def isMissingMarker (relativePath : String) : Bool :=
  goHasSuffix relativePath ".MISSING" || goHasSuffix relativePath "DIRECTORY.MISSING"

/-- The `originalPath` computed for a marker file:
`strings.TrimSuffix(strings.TrimSuffix(relativePath, ".MISSING"), "DIRECTORY.MISSING")`
— note the inner trim runs first, exactly as in the source. -/
def markerOriginalPath (relativePath : String) : String :=
  goTrimSuffix (goTrimSuffix relativePath ".MISSING") "DIRECTORY.MISSING"

/-- The `(relativePath, checksum, error)` triple that the walk body of
`collectFromServer` passes to `manifest.AddFile` for one regular file:
a missing-marker file is recorded as `(originalPath, "", "Missing on remote")`
without checksumming; otherwise `util.CalculateSHA256` (modelled by
`csResult`) yields either `(relativePath, checksum, "")` or
`(relativePath, "", err)`. -/
def collectWalkRecord (relativePath : String) (csResult : Except String String) :
    String × String × String :=
  if isMissingMarker relativePath then
    (markerOriginalPath relativePath, "", "Missing on remote")
  else
    match csResult with
    | .ok checksum => (relativePath, checksum, "")
    | .error e => (relativePath, "", e)

/-- Per-run environment of `RunCollection`: for each server, `none` when its
goroutine finished without sending on `errChan` (semaphore acquired and
`collectFromServer` returned nil), or `some msg` for the error it sent; and
whether `manifest.Save` would succeed. -/
structure CollectEnv where
  collectErr : String → Option String
  saveOk : Bool

/-- Outcome of `RunCollection`: the returned bool, whether `manifest.Save`
was invoked (i.e. whether anything was written to the manifest path), and
the errors drained from `errChan`. -/
structure CollectOut where
  success : Bool
  saveAttempted : Bool
  errs : List String

/-- Model of `collect.RunCollection`: run every server's collection (the
goroutines only append to the buffered `errChan`, drained after `wg.Wait()`,
so sequential accumulation is faithful up to error order); `success` starts
true and is cleared by any drained error; the manifest is saved only when
`success` still holds, and a failing save clears `success`. -/
def runCollection (servers : List String) (env : CollectEnv) : CollectOut :=
  let errs := servers.foldl
    (fun acc s =>
      match env.collectErr s with
      | some e => acc ++ ["[" ++ s ++ "] collection error: " ++ e]
      | none => acc)
    []
  if errs.isEmpty then
    { success := env.saveOk, saveAttempted := true, errs := errs }
  else
    { success := false, saveAttempted := false, errs := errs }

/-! ### `sshutil.Connect` (src/internal/sshutil/sshutil.go, lines 26-114)

Key reading and parsing (the authentication material) happen once, before the
retry loop; the loop makes up to `maxRetries = 3` attempts, each a TCP dial
followed by an SSH handshake, sleeping `retryDelay = 2` seconds after a failed
attempt that is not the last. The per-attempt outcomes are oracles; sleeps
are logged. -/

/-- How far `Connect` got, or why it failed. -/
inductive ConnectOutcome
  | keyReadError
  | keyParseError
  | dialError
  | handshakeError
  | sftpError
  | connected
deriving DecidableEq

/-- Environment of one `Connect` call: whether `os.ReadFile(keyPath)`
succeeds, whether the key parses (with or without passphrase), and the
outcome of the TCP dial and SSH handshake of each attempt (1-based). -/
structure ConnectEnv where
  keyReadOk : Bool
  parseOk : Bool
  dialOk : Nat → Bool
  handshakeOk : Nat → Bool
  sftpOk : Bool

/-- Trace of one `Connect` call: the outcome, how many loop attempts were
entered, and the seconds slept between attempts, in order. -/
structure ConnectTrace where
  outcome : ConnectOutcome
  attempts : Nat
  sleeps : List Nat
deriving DecidableEq

/-- The retry loop of `Connect`, `attempt` being the current attempt number
and `fuel = maxRetries - attempt` the retries still allowed: a failed dial or
handshake on a non-final attempt sleeps 2 seconds and retries; on the final
attempt it returns the error; a successful handshake leaves the loop. -/
def connectRetryLoop (env : ConnectEnv) : Nat → Nat → ConnectOutcome × Nat × List Nat
  | _, 0 => (.dialError, 0, [])
  | attempt, fuel + 1 =>
    if env.dialOk attempt then
      if env.handshakeOk attempt then (.connected, 1, [])
      else if fuel = 0 then (.handshakeError, 1, [])
      else
        let rest := connectRetryLoop env (attempt + 1) fuel
        (rest.1, rest.2.1 + 1, 2 :: rest.2.2)
    else if fuel = 0 then (.dialError, 1, [])
    else
      let rest := connectRetryLoop env (attempt + 1) fuel
      (rest.1, rest.2.1 + 1, 2 :: rest.2.2)

/-- Model of `sshutil.Connect`: read the key file, parse the key (both before
any connection attempt; either failure returns immediately), then run the
retry loop with `maxRetries = 3`; on loop success create the SFTP client. -/
def connect (env : ConnectEnv) : ConnectTrace :=
  if env.keyReadOk = false then ⟨.keyReadError, 0, []⟩
  else if env.parseOk = false then ⟨.keyParseError, 0, []⟩
  else
    let loop := connectRetryLoop env 1 3
    if loop.1 = .connected then
      if env.sftpOk then ⟨.connected, loop.2.1, loop.2.2⟩
      else ⟨.sftpError, loop.2.1, loop.2.2⟩
    else ⟨loop.1, loop.2.1, loop.2.2⟩

/-! ### Association-list lemmas (Go map get/put laws) -/

/-- Reading back the key just written. -/
theorem alistLookup_insert_self {β : Type} (l : List (String × β)) (k : String) (v : β) :
    alistLookup (alistInsert l k v) k = some v := by
  induction l with
  | nil => simp [alistInsert, alistLookup]
  | cons hd tl ih =>
    by_cases h : hd.1 = k
    · simp [alistInsert, alistLookup, h]
    · simp [alistInsert, alistLookup, h, ih]

/-- Writing one key leaves every other key's read unchanged. -/
theorem alistLookup_insert_ne {β : Type} (l : List (String × β)) (k k' : String) (v : β)
    (h : k' ≠ k) : alistLookup (alistInsert l k v) k' = alistLookup l k' := by
  have hkk : ¬ (k = k') := fun hk => h hk.symm
  induction l with
  | nil => simp [alistInsert, alistLookup, hkk]
  | cons hd tl ih =>
    obtain ⟨k0, v0⟩ := hd
    by_cases hk : k0 = k
    · subst hk
      simp [alistInsert, alistLookup, hkk]
    · by_cases hk' : k0 = k'
      · simp [alistInsert, alistLookup, hk, hk', h]
      · simp [alistInsert, alistLookup, hk, hk', ih]

/-- A successful lookup exhibits a member of the list. -/
theorem alistLookup_mem {β : Type} (l : List (String × β)) (k : String) (v : β)
    (h : alistLookup l k = some v) : (k, v) ∈ l := by
  induction l with
  | nil => simp [alistLookup] at h
  | cons hd tl ih =>
    obtain ⟨k0, v0⟩ := hd
    by_cases hk : k0 = k
    · subst hk
      simp only [alistLookup, if_pos rfl] at h
      cases h
      exact List.mem_cons_self _ _
    · simp only [alistLookup, hk, ite_false] at h
      exact List.mem_cons_of_mem _ (ih h)

/-- Every key after an insert is the inserted key or an old key. -/
theorem alistInsert_keys_subset {β : Type} (l : List (String × β)) (k : String) (v : β) :
    ∀ x ∈ (alistInsert l k v).map Prod.fst, x = k ∨ x ∈ l.map Prod.fst := by
  induction l with
  | nil => simp [alistInsert]
  | cons hd tl ih =>
    obtain ⟨k0, v0⟩ := hd
    by_cases hk : k0 = k
    · rw [show alistInsert ((k0, v0) :: tl) k v = (k, v) :: tl by simp [alistInsert, hk]]
      intro x hx
      rcases List.mem_cons.mp hx with h | h
      · exact Or.inl h
      · right
        exact List.mem_cons_of_mem _ h
    · intro x hx
      simp only [alistInsert, hk, ite_false, List.map_cons, List.mem_cons] at hx
      rcases hx with h | h
      · right; simp [h]
      · rcases ih x h with h' | h'
        · exact Or.inl h'
        · right; simp [h']

/-- Insert-or-replace preserves distinctness of the keys. -/
theorem alistInsert_keys_nodup {β : Type} (l : List (String × β)) (k : String) (v : β)
    (h : (l.map Prod.fst).Nodup) : ((alistInsert l k v).map Prod.fst).Nodup := by
  induction l with
  | nil => simp [alistInsert]
  | cons hd tl ih =>
    rw [List.map_cons, List.nodup_cons] at h
    by_cases hk : hd.1 = k
    · simp only [alistInsert, hk, if_pos, List.map_cons, List.nodup_cons]
      exact ⟨hk ▸ h.1, h.2⟩
    · simp only [alistInsert, hk, ite_false, List.map_cons, List.nodup_cons]
      refine ⟨fun hmem => ?_, ih h.2⟩
      rcases alistInsert_keys_subset tl k v _ hmem with h' | h'
      · exact hk h'
      · exact h.1 h'

/-! ### Claim C9: `Manifest.AddFile` / `GetFileInfo` get-put laws -/

/-- Claim C9: after `AddFile(server, relativePath, checksum, errorText)`,
`GetFileInfo(server, relativePath)` returns exactly
`(FileInfo{Path: relativePath, Checksum: checksum, Error: errorText}, true)`,
and `GetFileInfo` on every other `(server, path)` pair is unchanged. -/
theorem manifest_addFile_get_put (m : Manifest)
    (server relativePath checksum fileError : String) :
    (m.addFile server relativePath checksum fileError).getFileInfo server relativePath
      = (⟨relativePath, checksum, fileError⟩, true)
    ∧ ∀ s p, (s, p) ≠ (server, relativePath) →
        (m.addFile server relativePath checksum fileError).getFileInfo s p
          = m.getFileInfo s p := by
  constructor
  · simp [Manifest.addFile, Manifest.getFileInfo, alistLookup_insert_self]
  · intro s p hne
    by_cases hs : s = server
    · subst hs
      have hp : p ≠ relativePath := fun h => hne (by rw [h])
      simp only [Manifest.addFile, Manifest.getFileInfo, alistLookup_insert_self,
        alistLookup_insert_ne _ _ _ _ hp]
      cases hlk : alistLookup m.filesByServer s with
      | none => simp [alistLookup]
      | some sf => simp
    · simp only [Manifest.addFile, Manifest.getFileInfo,
        alistLookup_insert_ne _ _ _ _ hs]

/-- Witness for C9 at a concrete manifest: the inserted record is read back,
and an unrelated `(server, path)` pair is untouched. -/
theorem manifest_addFile_get_put_witness :
    ((Manifest.new).addFile "hostA" "etc/foo" "abc123" "").getFileInfo "hostA" "etc/foo"
      = (⟨"etc/foo", "abc123", ""⟩, true)
    ∧ ((Manifest.new).addFile "hostA" "etc/foo" "abc123" "").getFileInfo "hostB" "etc/bar"
      = (Manifest.new).getFileInfo "hostB" "etc/bar" :=
  ⟨(manifest_addFile_get_put Manifest.new "hostA" "etc/foo" "abc123" "").1,
    (manifest_addFile_get_put Manifest.new "hostA" "etc/foo" "abc123" "").2
      "hostB" "etc/bar" (by decide)⟩

/-! ### Claim C2: the synthetic root entry `.` / `./` -/

/-- Claim C2 (refuted — code bug): `ExtractTarGz` does not skip the synthetic
root entry. For name `.` (or `./`) the target is
`filepath.Join(dest, ".") = Clean(dest)`, which does not carry the checked
prefix `Clean(dest) + "/"`, so the sanitization check fires: extraction stops
with `invalid file path in tar: .` before any further entry is processed, and
nothing is extracted. (The archives produced by `GenerateCollectionScript`'s
`tar czf <tarball> .` begin with exactly such a `./` entry.) -/
theorem extractTarGz_root_entry_errors :
    extractTarGz [⟨(".").data, .dir, false⟩, ⟨("./foo").data, .reg, false⟩]
        (("/tmp/out").data)
      = ⟨[], some (invalidTarPathMsg ((".").data))⟩
    ∧ extractTarGz [⟨("./").data, .dir, false⟩] (("/tmp/out").data)
      = ⟨[], some (invalidTarPathMsg (("./").data))⟩ := by
  decide

/-! ### Claim C3: copy failure and the partial target file -/

/-- Claim C3 (refuted — code bug): when the `io.Copy` of a regular entry
fails, `ExtractTarGz` neither removes the partially written target file nor
returns the copy error. The closure wraps the copy error into the `err`
declared by `if _, err := io.Copy(...)`, which shadows the `err` checked
after the closure, so the outer `err` is still nil: the loop continues with
a nil error and the truncated file stays on disk (the source performs no
`os.Remove` on this path at all). Evaluated at a one-entry archive whose
copy fails: the file is created, no removal happens, and the returned error
is nil. -/
theorem extractTarGz_copy_error_swallowed :
    extractTarGz [⟨("etc/passwd").data, .reg, true⟩] (("/tmp/out").data)
      = ⟨[.mkdirAll (("/tmp/out/etc").data), .createFile (("/tmp/out/etc/passwd").data)],
          none⟩ := by
  decide

/-! ### Claim C5: missing-marker suffix stripping -/

/-- Claim C5 (refuted for directory markers — code bug): the walk strips
`".MISSING"` first, so a directory marker `<p>DIRECTORY.MISSING` becomes
`<p>DIRECTORY`, and the outer `TrimSuffix(_, "DIRECTORY.MISSING")` no longer
matches: the error-record lands under `<p>DIRECTORY` instead of the original
relative path `<p>`. The file-marker case (plain `.MISSING`) works as
specified. -/
theorem collectWalk_directory_marker_mangled :
    collectWalkRecord "etc/appDIRECTORY.MISSING" (.ok "0a1b2c")
      = ("etc/appDIRECTORY", "", "Missing on remote")
    ∧ ("etc/appDIRECTORY" : String) ≠ "etc/app"
    ∧ collectWalkRecord "etc/foo.conf.MISSING" (.ok "0a1b2c")
      = ("etc/foo.conf", "", "Missing on remote") := by
  decide

/-! ### Claim C6: full-success gating of `RunCollection` -/

/-- The error accumulation of `RunCollection` only appends. -/
theorem runCollection_fold_append (env : CollectEnv) (servers : List String) :
    ∀ acc : List String,
      servers.foldl
        (fun acc s =>
          match env.collectErr s with
          | some e => acc ++ ["[" ++ s ++ "] collection error: " ++ e]
          | none => acc) acc
      = acc ++ servers.foldl
          (fun acc s =>
            match env.collectErr s with
            | some e => acc ++ ["[" ++ s ++ "] collection error: " ++ e]
            | none => acc) [] := by
  induction servers with
  | nil => intro acc; simp
  | cons s rest ih =>
    intro acc
    simp only [List.foldl_cons]
    rw [ih, ih (match env.collectErr s with
      | some e => [] ++ ["[" ++ s ++ "] collection error: " ++ e]
      | none => [])]
    cases env.collectErr s <;> simp

/-- The `errs` field of `runCollection` is the error fold itself. -/
theorem runCollection_errs (env : CollectEnv) (servers : List String) :
    (runCollection servers env).errs
      = servers.foldl
          (fun acc s =>
            match env.collectErr s with
            | some e => acc ++ ["[" ++ s ++ "] collection error: " ++ e]
            | none => acc) [] := by
  cases h : (servers.foldl
      (fun acc s =>
        match env.collectErr s with
        | some e => acc ++ ["[" ++ s ++ "] collection error: " ++ e]
        | none => acc) ([] : List String)).isEmpty <;>
    simp [runCollection, h]

/-- The drained error list is empty exactly when no server sent an error. -/
theorem runCollection_errs_empty (env : CollectEnv) (servers : List String) :
    (runCollection servers env).errs = [] ↔ ∀ s ∈ servers, env.collectErr s = none := by
  rw [runCollection_errs]
  induction servers with
  | nil => simp
  | cons s rest ih =>
    simp only [List.foldl_cons]
    rw [runCollection_fold_append]
    constructor
    · intro h
      rcases List.append_eq_nil.mp h with ⟨h1, h2⟩
      intro s' hs'
      rcases List.mem_cons.mp hs' with rfl | hs'
      · cases he : env.collectErr s' <;> simp [he] at h1 ⊢
      · exact ih.mp h2 s' hs'
    · intro h
      have h1 : env.collectErr s = none := h s (List.mem_cons_self _ _)
      simp only [h1]
      exact ih.mpr (fun s' hs' => h s' (List.mem_cons_of_mem _ hs'))

/-- Claim C6: `RunCollection` returns `true` only if every server's task
succeeded (and additionally only if `manifest.Save` succeeded), and
`manifest.Save` is invoked — i.e. anything at all is written to the manifest
path — only if every server's task succeeded. -/
theorem runCollection_success_requires_all_hosts (servers : List String)
    (env : CollectEnv) :
    ((runCollection servers env).success = true → ∀ s ∈ servers, env.collectErr s = none)
    ∧ ((runCollection servers env).saveAttempted = true →
        ∀ s ∈ servers, env.collectErr s = none) := by
  by_cases hE : (runCollection servers env).errs = []
  · have hall := (runCollection_errs_empty env servers).mp hE
    exact ⟨fun _ => hall, fun _ => hall⟩
  · rw [runCollection_errs] at hE
    have hne : ((servers.foldl
        (fun acc s =>
          match env.collectErr s with
          | some e => acc ++ ["[" ++ s ++ "] collection error: " ++ e]
          | none => acc) []).isEmpty = true) = False := by
      simp only [List.isEmpty_iff]
      exact eq_false hE
    constructor
    · intro hs
      exfalso
      unfold runCollection at hs
      rw [if_neg (by rw [hne]; exact id)] at hs
      exact Bool.false_ne_true hs
    · intro hs
      exfalso
      unfold runCollection at hs
      rw [if_neg (by rw [hne]; exact id)] at hs
      exact Bool.false_ne_true hs

/-- Witness for C6: with one failing host, the manifest save is not attempted;
derived from the theorem's second conjunct at a concrete environment. -/
theorem runCollection_success_requires_all_hosts_witness :
    (runCollection ["hostA", "hostB"]
        ⟨fun s => if s = "hostA" then some "dial tcp: timeout" else none, true⟩).saveAttempted
      = false := by
  by_contra hsave
  rw [Bool.not_eq_false] at hsave
  have h := (runCollection_success_requires_all_hosts ["hostA", "hostB"]
    ⟨fun s => if s = "hostA" then some "dial tcp: timeout" else none, true⟩).2 hsave
  have h2 := h "hostA" (by simp)
  simp at h2

/-! ### Claim C8: the `Connect` retry policy -/

/-- The retry loop enters at most `fuel` attempts. -/
theorem connectRetryLoop_attempts_le (env : ConnectEnv) :
    ∀ fuel attempt, (connectRetryLoop env attempt fuel).2.1 ≤ fuel := by
  intro fuel
  induction fuel with
  | zero => intro attempt; simp [connectRetryLoop]
  | succ n ih =>
    intro attempt
    unfold connectRetryLoop
    by_cases hd : env.dialOk attempt
    · by_cases hh : env.handshakeOk attempt
      · simp [hd, hh]
      · by_cases hf : n = 0
        · simp [hd, hh, hf]
        · simp only [hd, hh, hf, if_true, if_false, ite_false]
          exact Nat.succ_le_succ (ih (attempt + 1))
    · by_cases hf : n = 0
      · simp [hd, hf]
      · simp only [hd, hf, if_false, ite_false]
        exact Nat.succ_le_succ (ih (attempt + 1))

/-- Every sleep of the retry loop is the fixed 2-second backoff. -/
theorem connectRetryLoop_sleeps_all_two (env : ConnectEnv) :
    ∀ fuel attempt, ∀ d ∈ (connectRetryLoop env attempt fuel).2.2, d = 2 := by
  intro fuel
  induction fuel with
  | zero => intro attempt; simp [connectRetryLoop]
  | succ n ih =>
    intro attempt
    unfold connectRetryLoop
    by_cases hd : env.dialOk attempt
    · by_cases hh : env.handshakeOk attempt
      · simp [hd, hh]
      · by_cases hf : n = 0
        · simp [hd, hh, hf]
        · simp only [hd, hh, hf, if_true, if_false, ite_false]
          intro d hmem
          rcases List.mem_cons.mp hmem with rfl | hmem
          · rfl
          · exact ih (attempt + 1) d hmem
    · by_cases hf : n = 0
      · simp [hd, hf]
      · simp only [hd, hf, if_false, ite_false]
        intro d hmem
        rcases List.mem_cons.mp hmem with rfl | hmem
        · rfl
        · exact ih (attempt + 1) d hmem

/-- With positive fuel, the loop sleeps exactly once less than it attempts
(the backoff runs between attempts, never after the last one). -/
theorem connectRetryLoop_sleeps_length (env : ConnectEnv) :
    ∀ fuel attempt, 1 ≤ fuel →
      (connectRetryLoop env attempt fuel).2.2.length + 1
        = (connectRetryLoop env attempt fuel).2.1 := by
  intro fuel
  induction fuel with
  | zero => intro _ h; exact absurd h (by simp)
  | succ n ih =>
    intro attempt _
    unfold connectRetryLoop
    by_cases hd : env.dialOk attempt
    · by_cases hh : env.handshakeOk attempt
      · simp [hd, hh]
      · by_cases hf : n = 0
        · simp [hd, hh, hf]
        · simp only [hd, hh, hf, if_true, if_false, ite_false]
          simpa using ih (attempt + 1) (Nat.one_le_iff_ne_zero.mpr hf)
    · by_cases hf : n = 0
      · simp [hd, hf]
      · simp only [hd, hf, if_false, ite_false]
        simpa using ih (attempt + 1) (Nat.one_le_iff_ne_zero.mpr hf)

/-- A further attempt is entered only because the previous attempt failed at
the dial or at the handshake. -/
theorem connectRetryLoop_retry_only_on_failure (env : ConnectEnv) :
    ∀ fuel attempt k, attempt ≤ k →
      k + 1 < attempt + (connectRetryLoop env attempt fuel).2.1 →
      env.dialOk k = false ∨ env.handshakeOk k = false := by
  intro fuel
  induction fuel with
  | zero =>
    intro attempt k hak hk
    simp only [connectRetryLoop] at hk
    omega
  | succ n ih =>
    intro attempt k hak hk
    unfold connectRetryLoop at hk
    by_cases hd : env.dialOk attempt
    · by_cases hh : env.handshakeOk attempt
      · simp [hd, hh] at hk
        omega
      · by_cases hf : n = 0
        · simp [hd, hh, hf] at hk
          omega
        · simp [hd, hh, hf] at hk
          rcases Nat.eq_or_lt_of_le hak with rfl | hlt
          · exact Or.inr (Bool.eq_false_iff.mpr hh)
          · exact ih (attempt + 1) k hlt (by omega)
    · by_cases hf : n = 0
      · simp [hd, hf] at hk
        omega
      · simp [hd, hf] at hk
        rcases Nat.eq_or_lt_of_le hak with rfl | hlt
        · exact Or.inl (Bool.eq_false_iff.mpr hd)
        · exact ih (attempt + 1) k hlt (by omega)

/-- Claim C8: `Connect` enters the connection loop at most 3 times; every
backoff between attempts is exactly 2 seconds, and there is exactly one fewer
backoff than attempts; a key-read or key-parse (authentication material)
failure returns immediately with zero connection attempts; and an attempt
`k` is followed by attempt `k+1` only when attempt `k` failed at the TCP
dial or the SSH handshake (transport level). -/
theorem connect_retry_policy (env : ConnectEnv) :
    (connect env).attempts ≤ 3
    ∧ (∀ d ∈ (connect env).sleeps, d = 2)
    ∧ ((connect env).attempts = 0 ∨ (connect env).sleeps.length + 1 = (connect env).attempts)
    ∧ ((env.keyReadOk = false ∨ env.parseOk = false) →
        (connect env).attempts = 0
        ∧ ((connect env).outcome = .keyReadError ∨ (connect env).outcome = .keyParseError))
    ∧ (∀ k, 1 ≤ k → k + 1 ≤ (connect env).attempts →
        env.dialOk k = false ∨ env.handshakeOk k = false) := by
  by_cases hkr : env.keyReadOk = false
  · have hc : connect env = ⟨.keyReadError, 0, []⟩ := by simp [connect, hkr]
    rw [hc]
    exact ⟨by simp, by simp, Or.inl rfl, fun _ => ⟨rfl, Or.inl rfl⟩,
      fun k _ hk => absurd hk (by simp)⟩
  · by_cases hp : env.parseOk = false
    · have hc : connect env = ⟨.keyParseError, 0, []⟩ := by simp [connect, hkr, hp]
      rw [hc]
      exact ⟨by simp, by simp, Or.inl rfl, fun _ => ⟨rfl, Or.inr rfl⟩,
        fun k _ hk => absurd hk (by simp)⟩
    · have hattempts : (connect env).attempts = (connectRetryLoop env 1 3).2.1 := by
        simp only [connect]
        rw [if_neg hkr, if_neg hp]
        split
        · split <;> rfl
        · rfl
      have hsleeps : (connect env).sleeps = (connectRetryLoop env 1 3).2.2 := by
        simp only [connect]
        rw [if_neg hkr, if_neg hp]
        split
        · split <;> rfl
        · rfl
      refine ⟨?_, ?_, ?_, ?_, ?_⟩
      · rw [hattempts]
        exact connectRetryLoop_attempts_le env 3 1
      · rw [hsleeps]
        exact connectRetryLoop_sleeps_all_two env 3 1
      · rw [hattempts, hsleeps]
        exact Or.inr (connectRetryLoop_sleeps_length env 3 1 (by omega))
      · intro habs
        rcases habs with h | h
        · exact absurd h hkr
        · exact absurd h hp
      · intro k hk1 hk
        rw [hattempts] at hk
        exact connectRetryLoop_retry_only_on_failure env 3 1 k hk1 (by omega)

/-- Witness for C8 at a concrete environment where every dial fails: three
attempts are made, both backoffs are 2 seconds, and the retry after attempt 1
is justified by its dial failure. -/
theorem connect_retry_policy_witness :
    (connect ⟨true, true, fun _ => false, fun _ => true, true⟩).attempts ≤ 3
    ∧ ((fun (_ : Nat) => false) 1 = false ∨ (fun (_ : Nat) => true) 1 = false) := by
  have h := connect_retry_policy ⟨true, true, fun _ => false, fun _ => true, true⟩
  exact ⟨h.1, h.2.2.2.2 1 (by omega) (by decide)⟩

/-! ### Claim C4: checksum equality short-circuits the diff -/

/-- Elements of `List.enumFrom n l` have index at least `n` and value in
`l`. -/
theorem mem_enumFrom_bounds {α : Type} :
    ∀ (l : List α) (n : Nat) (p : Nat × α), p ∈ List.enumFrom n l → n ≤ p.1 ∧ p.2 ∈ l := by
  intro l
  induction l with
  | nil => intro n p hp; simp [List.enumFrom] at hp
  | cons x xs ih =>
    intro n p hp
    rw [List.enumFrom_cons, List.mem_cons] at hp
    rcases hp with rfl | hp
    · exact ⟨Nat.le_refl _, List.mem_cons_self _ _⟩
    · rcases ih (n + 1) p hp with ⟨h1, h2⟩
      exact ⟨Nat.le_of_succ_le h1, List.mem_cons_of_mem _ h2⟩

/-- Non-index-0 iterations of the gather loop over all-valid servers with the
seeded checksum preserve `foundOnAll`, `allMatch` and `firstChecksum`. -/
theorem gather_tail_preserves (m : Manifest) (filePath baseOutputDir c : String)
    (hc : c ≠ "") :
    ∀ (l : List (Nat × String)),
      (∀ p ∈ l, p.1 ≠ 0) →
      (∀ p ∈ l, validRecordWith m p.2 filePath c) →
      ∀ st : GatherState, st.foundOnAll = true → st.allMatch = true →
        st.firstChecksum = c →
        (l.foldl (gatherStep m filePath baseOutputDir) st).foundOnAll = true
        ∧ (l.foldl (gatherStep m filePath baseOutputDir) st).allMatch = true
        ∧ (l.foldl (gatherStep m filePath baseOutputDir) st).firstChecksum = c := by
  intro l
  induction l with
  | nil => intro _ _ st h1 h2 h3; exact ⟨h1, h2, h3⟩
  | cons p rest ih =>
    intro hidx hval st h1 h2 h3
    have hp0 : p.1 ≠ 0 := hidx p (List.mem_cons_self _ _)
    obtain ⟨hex, herr, hcs⟩ := hval p (List.mem_cons_self _ _)
    rw [List.foldl_cons]
    have hcond : ¬ ((m.getFileInfo p.2 filePath).2 = false
        ∨ (m.getFileInfo p.2 filePath).1.error ≠ ""
        ∨ (m.getFileInfo p.2 filePath).1.checksum = "") := by
      push_neg
      exact ⟨by rw [hex]; simp, herr, by rw [hcs]; exact hc⟩
    have hstep : gatherStep m filePath baseOutputDir st p
        = { st with
            checksums := alistInsert st.checksums p.2 (m.getFileInfo p.2 filePath).1.checksum,
            filePaths := alistInsert st.filePaths p.2
              (localCollectedPath baseOutputDir p.2 filePath) } := by
      simp only [gatherStep]
      rw [if_neg hcond, if_neg hp0,
        if_neg (not_not_intro
          (show (m.getFileInfo p.2 filePath).1.checksum = st.firstChecksum by
            rw [hcs, h3]))]
    rw [hstep]
    exact ih (fun q hq => hidx q (List.mem_cons_of_mem _ hq))
      (fun q hq => hval q (List.mem_cons_of_mem _ hq)) _ h1 h2 h3

/-- Claim C4: when every server of a non-empty list has a manifest record for
`filePath` with no error and the same non-empty checksum `c`,
`compareSingleFile` reports `IsDiff = false` and the `diff` command is never
invoked (for any ambient filesystem/diff behavior). -/
theorem compareSingleFile_checksums_equal_no_diff (filePath : String)
    (servers : List String) (manifest : Manifest) (baseOutputDir : String)
    (saveDiffs : Bool) (diffDir : String) (env : CompareEnv)
    (c : String) (hc : c ≠ "") (hne : servers ≠ [])
    (hall : ∀ s ∈ servers, validRecordWith manifest s filePath c) :
    (compareSingleFile filePath servers manifest baseOutputDir saveDiffs diffDir env).result.isDiff
      = false
    ∧ (compareSingleFile filePath servers manifest baseOutputDir saveDiffs diffDir env).diffCalls
      = 0 := by
  obtain ⟨s0, rest, rfl⟩ : ∃ s0 rest, servers = s0 :: rest := by
    cases servers with
    | nil => exact absurd rfl hne
    | cons a l => exact ⟨a, l, rfl⟩
  obtain ⟨hex, herr, hcs⟩ := hall s0 (List.mem_cons_self _ _)
  have hcond : ¬ ((manifest.getFileInfo s0 filePath).2 = false
      ∨ (manifest.getFileInfo s0 filePath).1.error ≠ ""
      ∨ (manifest.getFileInfo s0 filePath).1.checksum = "") := by
    push_neg
    exact ⟨by rw [hex]; simp, herr, by rw [hcs]; exact hc⟩
  have henum : (s0 :: rest).enum = (0, s0) :: List.enumFrom 1 rest := by
    simp [List.enum]
  have hst0 : gatherStep manifest filePath baseOutputDir ⟨[], [], [], true, "", true⟩ (0, s0)
      = { checksums := alistInsert [] s0 (manifest.getFileInfo s0 filePath).1.checksum,
          filePaths := alistInsert [] s0 (localCollectedPath baseOutputDir s0 filePath),
          errorsFound := [], foundOnAll := true,
          firstChecksum := (manifest.getFileInfo s0 filePath).1.checksum,
          allMatch := true } := by
    simp only [gatherStep]
    rw [if_neg hcond]
    simp
  have h1 : (gatherStep manifest filePath baseOutputDir ⟨[], [], [], true, "", true⟩
      (0, s0)).foundOnAll = true := by rw [hst0]
  have h2 : (gatherStep manifest filePath baseOutputDir ⟨[], [], [], true, "", true⟩
      (0, s0)).allMatch = true := by rw [hst0]
  have h3 : (gatherStep manifest filePath baseOutputDir ⟨[], [], [], true, "", true⟩
      (0, s0)).firstChecksum = c := by rw [hst0]; exact hcs
  have hfold := gather_tail_preserves manifest filePath baseOutputDir c hc
    (List.enumFrom 1 rest)
    (fun p hp => by
      have := (mem_enumFrom_bounds rest 1 p hp).1
      omega)
    (fun p hp => hall p.2 (List.mem_cons_of_mem _ (mem_enumFrom_bounds rest 1 p hp).2))
    (gatherStep manifest filePath baseOutputDir ⟨[], [], [], true, "", true⟩ (0, s0))
    h1 h2 h3
  obtain ⟨hfound, hmatch, _⟩ := hfold
  simp only [compareSingleFile, henum, List.foldl_cons]
  rw [if_neg (by rw [hfound]; simp), if_pos hmatch]
  exact ⟨rfl, rfl⟩

/-- Witness for C4: two servers, both carrying checksum `c1` for `etc/foo`;
the comparison reports no difference and zero diff invocations. -/
theorem compareSingleFile_checksums_equal_no_diff_witness :
    (compareSingleFile "etc/foo" ["hostA", "hostB"]
        (((Manifest.new).addFile "hostA" "etc/foo" "c1" "").addFile "hostB" "etc/foo" "c1" "")
        "." false "" ⟨fun _ => true, fun _ _ => .sameExit⟩).result.isDiff = false
    ∧ (compareSingleFile "etc/foo" ["hostA", "hostB"]
        (((Manifest.new).addFile "hostA" "etc/foo" "c1" "").addFile "hostB" "etc/foo" "c1" "")
        "." false "" ⟨fun _ => true, fun _ _ => .sameExit⟩).diffCalls = 0 :=
  compareSingleFile_checksums_equal_no_diff "etc/foo" ["hostA", "hostB"]
    (((Manifest.new).addFile "hostA" "etc/foo" "c1" "").addFile "hostB" "etc/foo" "c1" "")
    "." false "" ⟨fun _ => true, fun _ _ => .sameExit⟩ "c1"
    (by decide) (by decide) (by decide)

/-! ### Claim C10: `getFilesToCompare` output shape -/

/-- `lexLe` is total. -/
theorem lexLe_total : ∀ x y : List Char, lexLe x y = true ∨ lexLe y x = true := by
  intro x
  induction x with
  | nil => intro y; exact Or.inl rfl
  | cons a as ih =>
    intro y
    cases y with
    | nil => exact Or.inr rfl
    | cons b bs =>
      by_cases hab : a = b
      · subst hab
        simpa [lexLe] using ih bs
      · rcases lt_or_gt_of_ne hab with h | h
        · exact Or.inl (by simp [lexLe, hab, h])
        · refine Or.inr ?_
          have hba : ¬ b = a := fun hba => hab hba.symm
          simp [lexLe, hba, h]

/-- `lexLe` is transitive. -/
theorem lexLe_trans : ∀ x y z : List Char,
    lexLe x y = true → lexLe y z = true → lexLe x z = true := by
  intro x
  induction x with
  | nil => intro y z _ _; rfl
  | cons a as ih =>
    intro y z hxy hyz
    cases y with
    | nil => simp [lexLe] at hxy
    | cons b bs =>
      cases z with
      | nil => simp [lexLe] at hyz
      | cons c cs =>
        by_cases hab : a = b <;> by_cases hbc : b = c
        · subst hab; subst hbc
          simp only [lexLe, if_pos rfl] at hxy hyz ⊢
          exact ih bs cs hxy hyz
        · subst hab
          simp only [lexLe, if_pos rfl, hbc, ite_false, decide_eq_true_eq] at hyz ⊢
          exact hyz
        · subst hbc
          simp only [lexLe, hab, ite_false, if_pos rfl, decide_eq_true_eq] at hxy ⊢
          exact hxy
        · simp only [lexLe, hab, hbc, ite_false, decide_eq_true_eq] at hxy hyz
          have hac : a < c := lt_trans hxy hyz
          have : a ≠ c := ne_of_lt hac
          simp [lexLe, this, hac]

instance : IsTotal String strLe :=
  ⟨fun a b => lexLe_total a.data b.data⟩

instance : IsTrans String strLe :=
  ⟨fun a b c hab hbc => lexLe_trans a.data b.data c.data hab hbc⟩

/-- The inner tally fold preserves distinctness of the `allFiles` keys. -/
theorem tallyInner_keys_nodup (sf : List (String × FileInfo)) :
    ∀ acc : List (String × Nat) × List (String × Bool),
      (acc.2.map Prod.fst).Nodup →
      (((sf.foldl
        (fun acc2 entry =>
          if entry.2.error = "" then
            (bumpCount acc2.1 entry.1, alistInsert acc2.2 entry.1 true)
          else acc2)
        acc).2).map Prod.fst).Nodup := by
  induction sf with
  | nil => intro acc h; exact h
  | cons e rest ih =>
    intro acc h
    rw [List.foldl_cons]
    by_cases he : e.2.error = ""
    · simp only [he, if_pos rfl]
      exact ih _ (alistInsert_keys_nodup _ _ _ h)
    · simp only [he, ite_false]
      exact ih _ h

/-- The per-server tally fold preserves distinctness of the `allFiles` keys. -/
theorem tally_keys_nodup (manifest : Manifest) (servers : List String) :
    ∀ acc : List (String × Nat) × List (String × Bool),
      (acc.2.map Prod.fst).Nodup →
      (((servers.foldl (tallyServer manifest) acc).2).map Prod.fst).Nodup := by
  induction servers with
  | nil => intro acc h; exact h
  | cons s rest ih =>
    intro acc h
    rw [List.foldl_cons]
    refine ih _ ?_
    unfold tallyServer
    cases alistLookup manifest.filesByServer s with
    | none => exact h
    | some sf => exact tallyInner_keys_nodup sf acc h

/-- Claim C10: `getFilesToCompare` always returns a duplicate-free list,
sorted ascending in the `sort.Strings` (byte-wise lexicographic) order, and
returns `[]` for an empty server list. -/
theorem getFilesToCompare_sorted_nodup (servers : List String) (manifest : Manifest) :
    List.Sorted strLe (getFilesToCompare servers manifest)
    ∧ (getFilesToCompare servers manifest).Nodup
    ∧ (servers = [] → getFilesToCompare servers manifest = []) := by
  by_cases hs : servers.isEmpty
  · simp [getFilesToCompare, hs]
  · have hres : getFilesToCompare servers manifest
        = List.insertionSort strLe
            ((((servers.foldl (tallyServer manifest) ([], [])).2).map Prod.fst).filter
              (fun fp =>
                alistLookup (servers.foldl (tallyServer manifest) ([], [])).1 fp
                  = some servers.length)) := by
      simp [getFilesToCompare, hs]
    refine ⟨?_, ?_, ?_⟩
    · rw [hres]
      exact List.sorted_insertionSort strLe _
    · rw [hres]
      refine (List.Perm.nodup_iff (List.perm_insertionSort strLe _)).mpr ?_
      exact List.Nodup.filter _ (tally_keys_nodup manifest servers ([], []) (by simp))
    · intro h
      subst h
      simp at hs

/-- Witness for C10: the empty-server case of the theorem at a concrete
manifest, plus a concrete sorted-and-deduplicated evaluation. -/
theorem getFilesToCompare_sorted_nodup_witness :
    getFilesToCompare [] ((Manifest.new).addFile "hostA" "p" "c" "") = [] :=
  (getFilesToCompare_sorted_nodup [] ((Manifest.new).addFile "hostA" "p" "c" "")).2.2 rfl

/-! ### Claim C7: partially-present paths are excluded -/

/-- `bumpCount` at the bumped key. -/
theorem bumpCount_lookup_self (c : List (String × Nat)) (k : String) :
    alistLookup (bumpCount c k) k = some ((alistLookup c k).getD 0 + 1) := by
  unfold bumpCount
  cases h : alistLookup c k with
  | none => simp [alistLookup_insert_self, h]
  | some n => simp [alistLookup_insert_self, h]

/-- `bumpCount` away from the bumped key. -/
theorem bumpCount_lookup_ne (c : List (String × Nat)) (k k' : String) (h : k' ≠ k) :
    alistLookup (bumpCount c k) k' = alistLookup c k' := by
  unfold bumpCount
  cases alistLookup c k with
  | none => exact alistLookup_insert_ne _ _ _ _ h
  | some n => exact alistLookup_insert_ne _ _ _ _ h

/-- The inner tally fold does not touch the count of a path that none of the
entries mention. -/
theorem tallyInner_lookup_absent (filePath : String) :
    ∀ (sf : List (String × FileInfo)) (acc : List (String × Nat) × List (String × Bool)),
      (∀ e ∈ sf, e.1 ≠ filePath) →
      alistLookup ((sf.foldl
        (fun acc2 entry =>
          if entry.2.error = "" then
            (bumpCount acc2.1 entry.1, alistInsert acc2.2 entry.1 true)
          else acc2)
        acc).1) filePath = alistLookup acc.1 filePath := by
  intro sf
  induction sf with
  | nil => intro acc _; rfl
  | cons e rest ih =>
    intro acc habs
    rw [List.foldl_cons]
    have hne : e.1 ≠ filePath := habs e (List.mem_cons_self _ _)
    have htail := ih (if e.2.error = "" then
        (bumpCount acc.1 e.1, alistInsert acc.2 e.1 true) else acc)
      (fun e' he' => habs e' (List.mem_cons_of_mem _ he'))
    rw [htail]
    by_cases he : e.2.error = ""
    · simp only [he, if_pos rfl]
      exact bumpCount_lookup_ne _ _ _ (fun h => hne h.symm)
    · simp only [he, ite_false]

/-- No entry mentioning the path means the validity scan is false. -/
theorem anyValid_absent (filePath : String) (sf : List (String × FileInfo))
    (habs : ∀ e ∈ sf, e.1 ≠ filePath) :
    sf.any (fun e => e.1 == filePath && e.2.error == "") = false := by
  rw [List.any_eq_false]
  intro e he
  simp only [Bool.and_eq_true, beq_iff_eq]
  intro h
  exact habs e he h.1

/-- Characterization of the inner tally fold at one path: on a sub-map with
distinct keys it bumps the path's count exactly when the sub-map holds a
valid (error-free) entry for it. -/
theorem tallyInner_lookup (filePath : String) :
    ∀ (sf : List (String × FileInfo)),
      ((sf.map Prod.fst).Nodup) →
      ∀ acc : List (String × Nat) × List (String × Bool),
      alistLookup ((sf.foldl
        (fun acc2 entry =>
          if entry.2.error = "" then
            (bumpCount acc2.1 entry.1, alistInsert acc2.2 entry.1 true)
          else acc2)
        acc).1) filePath
      = if sf.any (fun e => e.1 == filePath && e.2.error == "") then
          some ((alistLookup acc.1 filePath).getD 0 + 1)
        else alistLookup acc.1 filePath := by
  intro sf
  induction sf with
  | nil => intro _ acc; simp
  | cons e rest ih =>
    intro hnd acc
    rw [List.map_cons, List.nodup_cons] at hnd
    rw [List.foldl_cons, List.any_cons]
    by_cases hkey : e.1 = filePath
    · have habs : ∀ e' ∈ rest, e'.1 ≠ filePath := by
        intro e' he' h
        have hmem : e'.1 ∈ rest.map Prod.fst := List.mem_map_of_mem Prod.fst he'
        rw [h, ← hkey] at hmem
        exact hnd.1 hmem
      by_cases he : e.2.error = ""
      · rw [if_pos he, tallyInner_lookup_absent filePath rest _ habs]
        have hhead : (e.1 == filePath && e.2.error == "") = true := by
          simp [hkey, he]
        rw [hhead]
        simp [hkey, bumpCount_lookup_self]
      · rw [if_neg he, tallyInner_lookup_absent filePath rest _ habs,
          anyValid_absent filePath rest habs]
        have hhead : (e.1 == filePath && e.2.error == "") = false := by
          simp [he]
        rw [hhead]
        simp
    · have hhead : (e.1 == filePath && e.2.error == "") = false := by
        simp [hkey]
      rw [hhead]
      by_cases he : e.2.error = ""
      · rw [if_pos he, ih hnd.2 _,
          bumpCount_lookup_ne _ _ _ (fun h => hkey h.symm)]
        rw [Bool.false_or]
      · rw [if_neg he, ih hnd.2 _]
        rw [Bool.false_or]

/-- `addCnt` absorbs one extra bump. -/
theorem addCnt_succ (o : Option Nat) (k : Nat) :
    addCnt (some (o.getD 0 + 1)) k = addCnt o (k + 1) := by
  cases k with
  | zero => simp [addCnt]
  | succ n =>
    simp [addCnt]
    omega

/-- Characterization of the full tally at one path: the count stored for
`filePath` is the number of configured servers carrying a valid (error-free)
record for it, on a well-formed manifest. -/
theorem tally_lookup (manifest : Manifest) (hwf : manifest.WF) (filePath : String) :
    ∀ (servers : List String) (acc : List (String × Nat) × List (String × Bool)),
      alistLookup ((servers.foldl (tallyServer manifest) acc).1) filePath
        = addCnt (alistLookup acc.1 filePath)
            (servers.countP (fun s => serverHasValid manifest s filePath)) := by
  intro servers
  induction servers with
  | nil => intro acc; simp [addCnt]
  | cons s rest ih =>
    intro acc
    rw [List.foldl_cons, ih, List.countP_cons]
    by_cases hsv : serverHasValid manifest s filePath = true
    · rw [hsv]
      unfold serverHasValid at hsv
      cases hlk : alistLookup manifest.filesByServer s with
      | none => rw [hlk] at hsv; simp at hsv
      | some sf =>
        have hany : (sf.any fun e => e.1 == filePath && e.2.error == "") = true := by
          rw [hlk] at hsv
          exact hsv
        have hnd : (sf.map Prod.fst).Nodup := hwf (s, sf) (alistLookup_mem _ _ _ hlk)
        have hil := tallyInner_lookup filePath sf hnd acc
        unfold tallyServer
        rw [hlk, hil, hany, if_pos rfl, if_pos rfl]
        exact addCnt_succ _ _
    · rw [Bool.eq_false_iff.mpr hsv]
      unfold serverHasValid at hsv
      cases hlk : alistLookup manifest.filesByServer s with
      | none =>
        unfold tallyServer
        rw [hlk]
        simp
      | some sf =>
        have hany : (sf.any fun e => e.1 == filePath && e.2.error == "") = false := by
          rw [hlk] at hsv
          exact Bool.eq_false_iff.mpr hsv
        have hnd : (sf.map Prod.fst).Nodup := hwf (s, sf) (alistLookup_mem _ _ _ hlk)
        have hil := tallyInner_lookup filePath sf hnd acc
        unfold tallyServer
        rw [hlk, hil, hany]
        simp

/-- The result record of `compareSingleFile` carries its input path. -/
theorem compareSingleFile_filePath (filePath : String) (servers : List String)
    (manifest : Manifest) (baseOutputDir : String) (saveDiffs : Bool)
    (diffDir : String) (env : CompareEnv) :
    (compareSingleFile filePath servers manifest baseOutputDir saveDiffs
      diffDir env).result.filePath = filePath := by
  simp only [compareSingleFile]
  split
  · rfl
  · split <;> rfl

/-- Claim C7: a relative path with a valid (non-error) record on only a
strict subset of the configured servers — at least one server has one, at
least one has none — is excluded from `getFilesToCompare` and appears in no
result of the analysis fan-out, on a well-formed manifest. -/
theorem subset_only_path_excluded (servers : List String) (manifest : Manifest)
    (hwf : manifest.WF) (filePath : String)
    (baseOutputDir : String) (saveDiffs : Bool) (diffDir : String) (env : CompareEnv)
    (hyes : ∃ s ∈ servers, serverHasValid manifest s filePath = true)
    (hno : ∃ s ∈ servers, serverHasValid manifest s filePath = false) :
    filePath ∉ getFilesToCompare servers manifest
    ∧ ∀ r ∈ runAnalysisResults servers manifest baseOutputDir saveDiffs diffDir env,
        r.filePath ≠ filePath := by
  have hcnt_lt : servers.countP (fun s => serverHasValid manifest s filePath)
      < servers.length := by
    rcases hno with ⟨s0, hs0, hfalse⟩
    rcases Nat.lt_or_ge (servers.countP (fun s => serverHasValid manifest s filePath))
      servers.length with h | h
    · exact h
    · exfalso
      have heq : servers.countP (fun s => serverHasValid manifest s filePath)
          = servers.length :=
        Nat.le_antisymm (List.countP_le_length _) h
      have := List.countP_eq_length.mp heq s0 hs0
      rw [hfalse] at this
      exact Bool.false_ne_true this
  have hnotmem : filePath ∉ getFilesToCompare servers manifest := by
    intro hmem
    have hs : ¬ servers.isEmpty = true := by
      rcases hyes with ⟨s0, hs0, _⟩
      cases servers with
      | nil => simp at hs0
      | cons a l => simp
    rw [show getFilesToCompare servers manifest
        = List.insertionSort strLe
            ((((servers.foldl (tallyServer manifest) ([], [])).2).map Prod.fst).filter
              (fun fp =>
                alistLookup (servers.foldl (tallyServer manifest) ([], [])).1 fp
                  = some servers.length))
      from by simp [getFilesToCompare, hs]] at hmem
    rw [(List.perm_insertionSort strLe _).mem_iff] at hmem
    have hcond := List.of_mem_filter hmem
    rw [decide_eq_true_eq] at hcond
    rw [tally_lookup manifest hwf filePath servers ([], [])] at hcond
    simp only [alistLookup, addCnt] at hcond
    by_cases hz : servers.countP (fun s => serverHasValid manifest s filePath) = 0
    · rw [if_pos hz] at hcond
      exact Option.noConfusion hcond
    · rw [if_neg hz] at hcond
      have h2 := Option.some.inj hcond
      rw [Option.getD_none, Nat.zero_add] at h2
      exact absurd h2 (Nat.ne_of_lt hcnt_lt)
  refine ⟨hnotmem, ?_⟩
  intro r hr
  unfold runAnalysisResults at hr
  rcases List.mem_map.mp hr with ⟨fp, hfp, rfl⟩
  rw [compareSingleFile_filePath]
  intro h
  rw [h] at hfp
  exact hnotmem hfp

/-- Witness for C7: path `etc/foo` is collected only on `hostA` of
`[hostA, hostB]`; it is excluded from the comparison set and from the
analysis results. -/
theorem subset_only_path_excluded_witness :
    "etc/foo" ∉ getFilesToCompare ["hostA", "hostB"]
        ((Manifest.new).addFile "hostA" "etc/foo" "c1" "")
    ∧ ∀ r ∈ runAnalysisResults ["hostA", "hostB"]
        ((Manifest.new).addFile "hostA" "etc/foo" "c1" "")
        "." false "" ⟨fun _ => true, fun _ _ => .sameExit⟩,
        r.filePath ≠ "etc/foo" :=
  subset_only_path_excluded ["hostA", "hostB"]
    ((Manifest.new).addFile "hostA" "etc/foo" "c1" "")
    (by decide) "etc/foo" "." false "" ⟨fun _ => true, fun _ _ => .sameExit⟩
    (by decide) (by decide)

/-! ### Claim C1: path machinery

The chain of lemmas below establishes that the string-prefix check of
`ExtractTarGz` — `strings.HasPrefix(target, Clean(dest) + "/")` — implies, at
the level of canonical path elements, that the target is a strict descendant
of the destination; hence any entry whose resolved target escapes the
destination is rejected, and every filesystem write stays below the
destination. -/

/-- Every element produced by `splitSlash` is separator-free. -/
theorem splitSlash_slashFree : ∀ (p : GoStr), ∀ s ∈ splitSlash p, slashFreeSeg s := by
  intro p
  induction p with
  | nil =>
    intro s hs
    simp only [splitSlash, List.mem_singleton] at hs
    subst hs
    simp [slashFreeSeg]
  | cons c rest ih =>
    intro s hs
    by_cases hc : c = '/'
    · rw [show splitSlash (c :: rest) = [] :: splitSlash rest by
        simp [splitSlash, hc]] at hs
      rcases List.mem_cons.mp hs with h | h
      · subst h; simp [slashFreeSeg]
      · exact ih s h
    · cases hsp : splitSlash rest with
      | nil =>
        rw [show splitSlash (c :: rest) = [[c]] by
          simp only [splitSlash, hc, ite_false, hsp]] at hs
        rw [List.mem_singleton.mp hs]
        intro hmem
        rw [List.mem_singleton] at hmem
        exact hc hmem.symm
      | cons t ts =>
        rw [show splitSlash (c :: rest) = (c :: t) :: ts by
          simp only [splitSlash, hc, ite_false, hsp]] at hs
        rcases List.mem_cons.mp hs with h | h
        · subst h
          have ht : slashFreeSeg t := ih t (by rw [hsp]; exact List.mem_cons_self _ _)
          intro hmem
          rcases List.mem_cons.mp hmem with h' | h'
          · exact hc h'.symm
          · exact ht h'
        · exact ih s (by rw [hsp]; exact List.mem_cons_of_mem _ h)

/-- Elements of a canonical list are usable path elements. -/
theorem CanonList.nice {rooted : Bool} {l : List GoStr} (h : CanonList rooted l) :
    ∀ x ∈ l, NiceSeg x := by
  obtain ⟨ds, rs, rfl, hds, hrs, _⟩ := h
  intro x hx
  rcases List.mem_append.mp hx with hx | hx
  · rw [hds x hx]
    exact ⟨by simp, by simp, by simp [slashFreeSeg]⟩
  · exact (hrs x hx).1

/-- Canonical lists are closed under `dropLast`. -/
theorem CanonList.dropLast {rooted : Bool} {l : List GoStr} (h : CanonList rooted l) :
    CanonList rooted l.dropLast := by
  obtain ⟨ds, rs, rfl, hds, hrs, hr⟩ := h
  cases hrs0 : rs with
  | nil =>
    subst hrs0
    refine ⟨ds.dropLast, [], by simp, fun x hx => hds x (List.dropLast_subset _ hx),
      by simp, fun h => by rw [hr h]; simp⟩
  | cons r rs' =>
    refine ⟨ds, rs.dropLast, ?_, hds, fun x hx => hrs x (List.dropLast_subset _ hx), hr⟩
    rw [hrs0, List.dropLast_append_cons]

/-- One `cleanStep` preserves the canonical shape (for separator-free
input elements). -/
theorem cleanStep_canon {rooted : Bool} {out : List GoStr} (h : CanonList rooted out)
    {seg : GoStr} (hseg : slashFreeSeg seg) :
    CanonList rooted (cleanStep rooted out seg) := by
  unfold cleanStep
  by_cases h1 : seg = [] ∨ seg = ['.']
  · rw [if_pos h1]
    exact h
  · rw [if_neg h1]
    by_cases h2 : seg = ['.', '.']
    · rw [if_pos h2]
      by_cases h3 : out ≠ [] ∧ out.getLast? ≠ some ['.', '.']
      · rw [if_pos h3]
        exact h.dropLast
      · rw [if_neg h3]
        by_cases hr : rooted
        · rw [if_pos hr]
          exact h
        · rw [if_neg hr]
          obtain ⟨ds, rs, rfl, hds, hrs, hroot⟩ := h
          push_neg at h3
          have hrs0 : rs = [] := by
            cases hrs1 : rs with
            | nil => rfl
            | cons r rs' =>
              exfalso
              have hne : ds ++ rs ≠ [] := by rw [hrs1]; simp
              have hlast := h3 hne
              rw [hrs1] at hlast
              rw [List.getLast?_append_of_ne_nil _ (by simp)] at hlast
              have hmem : (['.', '.'] : GoStr) ∈ r :: rs' :=
                List.mem_of_mem_getLast? hlast
              have := hrs _ (by rw [hrs1]; exact hmem)
              exact this.2 rfl
          subst hrs0
          refine ⟨ds ++ [['.', '.']], [], by simp, ?_, by simp,
            fun hrt => absurd hrt (by simp [hr])⟩
          intro x hx
          rcases List.mem_append.mp hx with hx | hx
          · exact hds x hx
          · simpa using hx
    · rw [if_neg h2]
      obtain ⟨ds, rs, rfl, hds, hrs, hroot⟩ := h
      push_neg at h1
      refine ⟨ds, rs ++ [seg], by simp, hds, ?_, hroot⟩
      intro x hx
      rcases List.mem_append.mp hx with hx | hx
      · exact hrs x hx
      · rw [List.mem_singleton.mp hx]
        exact ⟨⟨h1.1, h1.2, hseg⟩, h2⟩

/-- The clean scan always yields a canonical list. -/
theorem cleanSegs_canon (rooted : Bool) (segs : List GoStr)
    (hsf : ∀ s ∈ segs, slashFreeSeg s) : CanonList rooted (cleanSegs rooted segs) := by
  suffices hgen : ∀ (l : List GoStr), (∀ s ∈ l, slashFreeSeg s) →
      ∀ out, CanonList rooted out → CanonList rooted (l.foldl (cleanStep rooted) out) by
    exact hgen segs hsf [] ⟨[], [], rfl, by simp, by simp, fun _ => rfl⟩
  intro l
  induction l with
  | nil => intro _ out h; exact h
  | cons x xs ih =>
    intro hsf out h
    rw [List.foldl_cons]
    exact ih (fun s hs => hsf s (List.mem_cons_of_mem _ hs)) _
      (cleanStep_canon h (hsf x (List.mem_cons_self _ _)))

/-- The canonical elements of any path form a canonical list. -/
theorem canonSegs_canon (p : GoStr) : CanonList (isRooted p) (canonSegs p) :=
  cleanSegs_canon (isRooted p) (splitSlash p) (splitSlash_slashFree p)

/-- Two separator-free elements followed by separators: a string prefix
forces the elements to coincide. -/
theorem prefix_seg_eq : ∀ (x y a b : GoStr), slashFreeSeg x → slashFreeSeg y →
    (x ++ '/' :: a) <+: (y ++ '/' :: b) → x = y ∧ a <+: b := by
  intro x
  induction x with
  | nil =>
    intro y a b _ hy h
    cases y with
    | nil =>
      refine ⟨rfl, ?_⟩
      simp only [List.nil_append] at h
      exact (List.cons_prefix_cons.mp h).2
    | cons d y' =>
      exfalso
      simp only [List.nil_append, List.cons_append] at h
      have hd := (List.cons_prefix_cons.mp h).1
      exact hy (by rw [hd]; exact List.mem_cons_self _ _)
  | cons c x' ih =>
    intro y a b hx hy h
    cases y with
    | nil =>
      exfalso
      simp only [List.cons_append, List.nil_append] at h
      have hc := (List.cons_prefix_cons.mp h).1
      exact hx (by rw [← hc]; exact List.mem_cons_self _ _)
    | cons d y' =>
      simp only [List.cons_append] at h
      obtain ⟨hcd, htail⟩ := List.cons_prefix_cons.mp h
      have hx' : slashFreeSeg x' := fun hm => hx (List.mem_cons_of_mem _ hm)
      have hy' : slashFreeSeg y' := fun hm => hy (List.mem_cons_of_mem _ hm)
      obtain ⟨heq, hab⟩ := ih y' a b hx' hy' htail
      exact ⟨by rw [hcd, heq], hab⟩

/-- A non-empty separator-free element keeps `intercSlash` non-empty. -/
theorem intercSlash_ne_nil : ∀ (xs : List GoStr), xs ≠ [] →
    (∀ x ∈ xs, NiceSeg x) → intercSlash xs ≠ [] := by
  intro xs hne hn
  cases xs with
  | nil => exact absurd rfl hne
  | cons x xs' =>
    have hx : x ≠ [] := (hn x (List.mem_cons_self _ _)).1
    cases xs' with
    | nil => simpa [intercSlash] using hx
    | cons w ws =>
      simp only [intercSlash]
      intro h
      exact hx (List.append_eq_nil.mp h).1

/-- Core of the containment bridge: a slash-terminated intercalation prefix
forces a strict element-list prefix. -/
theorem intercSlash_prefix_lt : ∀ (xs ys : List GoStr),
    (∀ x ∈ xs, NiceSeg x) → (∀ y ∈ ys, NiceSeg y) →
    (intercSlash xs ++ ['/']) <+: intercSlash ys →
    xs <+: ys ∧ xs.length < ys.length := by
  intro xs
  induction xs with
  | nil =>
    intro ys _ hys h
    exfalso
    simp only [intercSlash, List.nil_append] at h
    cases ys with
    | nil => simpa [intercSlash] using h.length_le
    | cons y ys' =>
      have hy := hys y (List.mem_cons_self _ _)
      cases ys' with
      | nil =>
        have : '/' ∈ y := h.subset (List.mem_singleton_self _)
        exact hy.2.2 this
      | cons z zs =>
        simp only [intercSlash] at h
        cases hy0 : y with
        | nil => exact hy.1 hy0
        | cons d y' =>
          rw [hy0, List.cons_append] at h
          have hd := (List.cons_prefix_cons.mp h).1
          exact hy.2.2 (by rw [hy0, ← hd]; exact List.mem_cons_self _ _)
  | cons x xs' ih =>
    intro ys hxs hys h
    have hx := hxs x (List.mem_cons_self _ _)
    cases ys with
    | nil =>
      exfalso
      simp only [intercSlash] at h
      have hlen := h.length_le
      have hne : intercSlash (x :: xs') ≠ [] := intercSlash_ne_nil _ (by simp) hxs
      simp only [List.length_append, List.length_cons, List.length_nil] at hlen
      omega
    | cons y ys' =>
      have hy := hys y (List.mem_cons_self _ _)
      cases xs' with
      | nil =>
        cases ys' with
        | nil =>
          exfalso
          simp only [intercSlash] at h
          have : '/' ∈ y := h.subset (by simp)
          exact hy.2.2 this
        | cons z zs =>
          rw [show intercSlash [x] = x from rfl,
            show intercSlash (y :: z :: zs) = y ++ '/' :: intercSlash (z :: zs) from rfl]
            at h
          rw [show (x ++ ['/'] : GoStr) = x ++ '/' :: [] from rfl] at h
          obtain ⟨hxy, _⟩ := prefix_seg_eq x y [] (intercSlash (z :: zs)) hx.2.2 hy.2.2 h
          constructor
          · rw [hxy]
            exact List.cons_prefix_cons.mpr ⟨rfl, List.nil_prefix⟩
          · simp
      | cons w ws =>
        cases ys' with
        | nil =>
          exfalso
          rw [show intercSlash (x :: w :: ws) = x ++ '/' :: intercSlash (w :: ws) from rfl,
            show intercSlash [y] = y from rfl] at h
          have : '/' ∈ y := h.subset (by simp)
          exact hy.2.2 this
        | cons z zs =>
          have hassoc : intercSlash (x :: w :: ws) ++ ['/']
              = x ++ '/' :: (intercSlash (w :: ws) ++ ['/']) := by
            show (x ++ '/' :: intercSlash (w :: ws)) ++ ['/'] = _
            rw [List.append_assoc]
            rfl
          rw [hassoc] at h
          obtain ⟨hxy, htail⟩ := prefix_seg_eq x y (intercSlash (w :: ws) ++ ['/'])
            (intercSlash (z :: zs)) hx.2.2 hy.2.2 h
          have hxs' : ∀ u ∈ w :: ws, NiceSeg u :=
            fun u hu => hxs u (List.mem_cons_of_mem _ hu)
          have hys' : ∀ u ∈ z :: zs, NiceSeg u :=
            fun u hu => hys u (List.mem_cons_of_mem _ hu)
          obtain ⟨hpre, hlt⟩ := ih (z :: zs) hxs' hys' htail
          constructor
          · rw [hxy]
            exact List.cons_prefix_cons.mpr ⟨rfl, hpre⟩
          · simpa using Nat.succ_lt_succ hlt

/-- Containment bridge: the `HasPrefix(target, Clean(dest)+"/")` check, read
on reassembled canonical paths, forces the destination's elements to be a
strict prefix of the target's elements. -/
theorem joinSegs_prefix_bridge (r : Bool) (xs ys : List GoStr)
    (hxs : CanonList r xs) (hys : CanonList r ys)
    (h : (joinSegs r xs ++ ['/']).isPrefixOf (joinSegs r ys) = true) :
    xs <+: ys ∧ xs.length < ys.length := by
  have h' : (joinSegs r xs ++ ['/']) <+: joinSegs r ys :=
    List.isPrefixOf_iff_prefix.mp h
  cases r with
  | true =>
    rw [show joinSegs true xs = '/' :: intercSlash xs from rfl,
      show joinSegs true ys = '/' :: intercSlash ys from rfl,
      List.cons_append] at h'
    exact intercSlash_prefix_lt xs ys hxs.nice hys.nice
      (List.cons_prefix_cons.mp h').2
  | false =>
    by_cases hxe : xs = []
    · exfalso
      subst hxe
      rw [show joinSegs false [] = ['.'] from rfl] at h'
      cases ys with
      | nil =>
        rw [show joinSegs false [] = ['.'] from rfl] at h'
        simpa using h'.length_le
      | cons y ys' =>
        have hy := hys.nice y (List.mem_cons_self _ _)
        rw [show joinSegs false (y :: ys') = intercSlash (y :: ys') from by
          simp [joinSegs]] at h'
        have hrest : ∃ rest, intercSlash (y :: ys') = y ++ rest := by
          cases ys' with
          | nil => exact ⟨[], by simp [intercSlash]⟩
          | cons z zs => exact ⟨'/' :: intercSlash (z :: zs), rfl⟩
        obtain ⟨rest, hre⟩ := hrest
        rw [hre] at h'
        obtain ⟨t, ht⟩ := h'
        have ht' : '.' :: '/' :: t = y ++ rest := by simpa using ht
        cases hy0 : y with
        | nil => exact hy.1 hy0
        | cons c y' =>
          rw [hy0, List.cons_append] at ht'
          injection ht' with hc ht2
          cases hy1 : y' with
          | nil =>
            apply hy.2.1
            rw [hy0, ← hc, hy1]
          | cons d y'' =>
            rw [hy1, List.cons_append] at ht2
            injection ht2 with hd _
            exact hy.2.2 (by rw [hy0, hy1, hd]; simp)
    · have hje : joinSegs false xs = intercSlash xs := by simp [joinSegs, hxe]
      cases ys with
      | nil =>
        exfalso
        rw [hje, show joinSegs false [] = ['.'] from rfl] at h'
        have hlen := h'.length_le
        have hne : intercSlash xs ≠ [] := intercSlash_ne_nil xs hxe hxs.nice
        simp only [List.length_append, List.length_singleton, List.length_cons,
          List.length_nil] at hlen
        have : 1 ≤ (intercSlash xs).length := by
          cases hi : intercSlash xs with
          | nil => exact absurd hi hne
          | cons a l => simp
        omega
      | cons y ys' =>
        rw [hje, show joinSegs false (y :: ys') = intercSlash (y :: ys') from by
          simp [joinSegs]] at h'
        exact intercSlash_prefix_lt xs (y :: ys') hxs.nice hys.nice h'

/-- `splitSlash` of a separator-free string is that single element. -/
theorem splitSlash_of_slashFree : ∀ (y : GoStr), slashFreeSeg y → splitSlash y = [y] := by
  intro y
  induction y with
  | nil => intro _; rfl
  | cons c y' ih =>
    intro hsf
    have hc : ¬ c = '/' := fun h => hsf (by rw [h]; exact List.mem_cons_self _ _)
    have hy' : slashFreeSeg y' := fun hm => hsf (List.mem_cons_of_mem _ hm)
    simp only [splitSlash, hc, ite_false, ih hy']

/-- `splitSlash` peels one separator-free element before a separator. -/
theorem splitSlash_append_slash : ∀ (y rest : GoStr), slashFreeSeg y →
    splitSlash (y ++ '/' :: rest) = y :: splitSlash rest := by
  intro y
  induction y with
  | nil => intro rest _; simp [splitSlash]
  | cons c y' ih =>
    intro rest hsf
    have hc : ¬ c = '/' := fun h => hsf (by rw [h]; exact List.mem_cons_self _ _)
    have hy' : slashFreeSeg y' := fun hm => hsf (List.mem_cons_of_mem _ hm)
    simp [splitSlash, hc, ih rest hy']

/-- Round trip: splitting an intercalation of separator-free elements
recovers the elements. -/
theorem splitSlash_intercSlash : ∀ (ys : List GoStr), ys ≠ [] →
    (∀ s ∈ ys, slashFreeSeg s) → splitSlash (intercSlash ys) = ys := by
  intro ys
  induction ys with
  | nil => intro h _; exact absurd rfl h
  | cons y ys' ih =>
    intro _ hsf
    cases ys' with
    | nil =>
      exact splitSlash_of_slashFree y (hsf y (List.mem_cons_self _ _))
    | cons z zs =>
      rw [show intercSlash (y :: z :: zs) = y ++ '/' :: intercSlash (z :: zs) from rfl,
        splitSlash_append_slash y _ (hsf y (List.mem_cons_self _ _)),
        ih (by simp) (fun s hs => hsf s (List.mem_cons_of_mem _ hs))]

/-- Appending one element to a non-empty list of elements appends to the
intercalation. -/
theorem intercSlash_append_singleton : ∀ (zs : List GoStr) (y : GoStr), zs ≠ [] →
    intercSlash (zs ++ [y]) = intercSlash zs ++ '/' :: y := by
  intro zs
  induction zs with
  | nil => intro y h; exact absurd rfl h
  | cons z zs' ih =>
    intro y _
    cases zs' with
    | nil => simp [intercSlash]
    | cons w ws =>
      show intercSlash (z :: w :: (ws ++ [y])) = intercSlash (z :: w :: ws) ++ '/' :: y
      rw [show intercSlash (z :: w :: (ws ++ [y]))
          = z ++ '/' :: intercSlash (w :: (ws ++ [y])) from rfl]
      rw [show (w :: (ws ++ [y]) : List GoStr) = (w :: ws) ++ [y] from rfl]
      rw [ih y (by simp),
        show intercSlash (z :: w :: ws) = z ++ '/' :: intercSlash (w :: ws) from rfl]
      simp

/-- `cleanStep` ignores empty elements. -/
theorem cleanStep_nil (rooted : Bool) (out : List GoStr) :
    cleanStep rooted out [] = out := by
  simp [cleanStep]

/-- The clean scan appends every name element unchanged. -/
theorem foldl_cleanStep_reals : ∀ (rs : List GoStr), (∀ x ∈ rs, RealSeg x) →
    ∀ (rooted : Bool) (acc : List GoStr),
      rs.foldl (cleanStep rooted) acc = acc ++ rs := by
  intro rs
  induction rs with
  | nil => intro _ _ acc; simp
  | cons x rs' ih =>
    intro hreal rooted acc
    obtain ⟨⟨hne, hdot, _⟩, hdd⟩ := hreal x (List.mem_cons_self _ _)
    rw [List.foldl_cons,
      show cleanStep rooted acc x = acc ++ [x] from by
        unfold cleanStep
        rw [if_neg (by push_neg; exact ⟨hne, hdot⟩), if_neg hdd],
      ih (fun u hu => hreal u (List.mem_cons_of_mem _ hu)) rooted (acc ++ [x])]
    simp

/-- The non-rooted clean scan appends `..` elements onto an all-`..`
accumulator unchanged. -/
theorem foldl_cleanStep_dots : ∀ (ds : List GoStr), (∀ x ∈ ds, x = ['.', '.']) →
    ∀ (acc : List GoStr), (∀ x ∈ acc, x = ['.', '.']) →
      ds.foldl (cleanStep false) acc = acc ++ ds := by
  intro ds
  induction ds with
  | nil => intro _ acc _; simp
  | cons x ds' ih =>
    intro hds acc hacc
    have hx : x = ['.', '.'] := hds x (List.mem_cons_self _ _)
    have hstep : cleanStep false acc x = acc ++ [x] := by
      unfold cleanStep
      rw [if_neg (by rw [hx]; push_neg; exact ⟨by simp, by simp⟩), if_pos hx]
      rw [if_neg, if_neg (by simp)]
      · rw [hx]
      · intro hand
        cases hal : acc.getLast? with
        | none =>
          rw [List.getLast?_eq_none_iff] at hal
          exact hand.1 hal
        | some a =>
          have ha := hacc a (List.mem_of_mem_getLast? hal)
          exact hand.2 (by rw [hal, ha])
    rw [List.foldl_cons, hstep,
      ih (fun u hu => hds u (List.mem_cons_of_mem _ hu)) (acc ++ [x])
        (fun u hu => by
          rcases List.mem_append.mp hu with hu | hu
          · exact hacc u hu
          · rw [List.mem_singleton.mp hu, hx])]
    simp

/-- The head character of an intercalation is the head of its first
element. -/
theorem intercSlash_head (c : Char) (y'' : GoStr) :
    ∀ (ys' : List GoStr), (intercSlash ((c :: y'') :: ys')).head? = some c := by
  intro ys'
  cases ys' with
  | nil => rfl
  | cons z zs => rfl

/-- Rootedness of a reassembled canonical path matches the flag. -/
theorem isRooted_joinSegs (r : Bool) (ys : List GoStr) (hys : CanonList r ys) :
    isRooted (joinSegs r ys) = r := by
  cases r with
  | true => rfl
  | false =>
    cases ys with
    | nil => rfl
    | cons y ys' =>
      have hy := hys.nice y (List.mem_cons_self _ _)
      rw [show joinSegs false (y :: ys') = intercSlash (y :: ys') from by
        simp [joinSegs]]
      cases hy0 : y with
      | nil => exact absurd hy0 hy.1
      | cons c y'' =>
        have hc : ¬ c = '/' := fun h => hy.2.2 (by rw [hy0, h]; simp)
        unfold isRooted
        rw [intercSlash_head]
        simp [hc]

/-- The clean scan of a canonical list (any interleaved empty elements
dropped) is the identity. -/
theorem cleanSegs_canon_id (r : Bool) (ys : List GoStr) (hys : CanonList r ys) :
    cleanSegs r ys = ys := by
  obtain ⟨ds, rs, rfl, hds, hrs, hroot⟩ := hys
  unfold cleanSegs
  rw [List.foldl_append]
  cases r with
  | true =>
    rw [hroot rfl]
    simpa using foldl_cleanStep_reals rs hrs true []
  | false =>
    rw [foldl_cleanStep_dots ds hds [] (by simp)]
    simpa using foldl_cleanStep_reals rs hrs false ([] ++ ds)

/-- Round trip through reassembly: `Clean`'s scan recovers the canonical
elements of a reassembled canonical path. -/
theorem canonSegs_joinSegs (r : Bool) (ys : List GoStr) (hys : CanonList r ys) :
    canonSegs (joinSegs r ys) = ys := by
  have hroot := isRooted_joinSegs r ys hys
  cases r with
  | true =>
    cases hys0 : ys with
    | nil => subst hys0; decide
    | cons y ys' =>
      subst hys0
      unfold canonSegs
      rw [hroot]
      rw [show joinSegs true (y :: ys') = '/' :: intercSlash (y :: ys') from rfl]
      rw [show splitSlash ('/' :: intercSlash (y :: ys'))
          = [] :: splitSlash (intercSlash (y :: ys')) from by simp [splitSlash]]
      rw [splitSlash_intercSlash (y :: ys') (by simp)
        (fun s hs => (hys.nice s hs).2.2)]
      unfold cleanSegs
      rw [List.foldl_cons, cleanStep_nil]
      have := cleanSegs_canon_id true (y :: ys') hys
      unfold cleanSegs at this
      exact this
  | false =>
    cases hys0 : ys with
    | nil => subst hys0; decide
    | cons y ys' =>
      subst hys0
      unfold canonSegs
      rw [hroot]
      rw [show joinSegs false (y :: ys') = intercSlash (y :: ys') from by
        simp [joinSegs]]
      rw [splitSlash_intercSlash (y :: ys') (by simp)
        (fun s hs => (hys.nice s hs).2.2)]
      exact cleanSegs_canon_id false (y :: ys') hys

/-- A trailing run without separators does not move the last separator. -/
theorem takeToLastSlash_append_slashFree (a b : GoStr) (hb : slashFreeSeg b) :
    takeToLastSlash (a ++ b) = takeToLastSlash a := by
  unfold takeToLastSlash
  rw [List.reverse_append]
  rw [List.dropWhile_append]
  rw [show (b.reverse.dropWhile (fun c => c ≠ '/')) = [] from by
    rw [List.dropWhile_eq_nil_iff]
    intro x hx
    simp only [ne_eq, decide_eq_true_eq]
    intro h
    exact hb (by rw [← h]; exact List.mem_reverse.mp hx)]
  simp

/-- A string without separators has no last separator. -/
theorem takeToLastSlash_slashFree (l : GoStr) (hl : slashFreeSeg l) :
    takeToLastSlash l = [] := by
  have := takeToLastSlash_append_slashFree [] l hl
  simpa [takeToLastSlash] using this

/-- A string ending in a separator is its own prefix-to-last-separator. -/
theorem takeToLastSlash_concat_slash (l : GoStr) :
    takeToLastSlash (l ++ ['/']) = l ++ ['/'] := by
  unfold takeToLastSlash
  rw [List.reverse_append]
  rw [show (['/'] : GoStr).reverse = ['/'] from rfl]
  rw [show (['/'] : GoStr) ++ l.reverse = '/' :: l.reverse from rfl]
  rw [List.dropWhile_cons]
  simp

/-- The clean scan drops a trailing empty element after canonical ones. -/
theorem cleanSegs_canon_concat_nil (r : Bool) (zs : List GoStr)
    (hzs : CanonList r zs) : cleanSegs r (zs ++ [[]]) = zs := by
  have hid := cleanSegs_canon_id r zs hzs
  unfold cleanSegs at hid ⊢
  rw [List.foldl_append, hid]
  simp [cleanStep_nil]

/-- `filepath.Dir` of a reassembled canonical path drops its last element. -/
theorem filepathDir_joinSegs (r : Bool) (ys : List GoStr) (hys : CanonList r ys)
    (hne : ys ≠ []) : filepathDir (joinSegs r ys) = joinSegs r ys.dropLast := by
  rcases List.eq_nil_or_concat ys with rfl | ⟨zs, y, rfl⟩
  · exact absurd rfl hne
  rw [List.concat_eq_append] at hys hne ⊢
  have hzs : CanonList r zs := by
    have := hys.dropLast
    rwa [List.dropLast_concat] at this
  have hy : NiceSeg y := hys.nice y (by simp)
  rw [List.dropLast_concat]
  cases r with
  | true =>
    cases zs with
    | nil =>
      rw [show joinSegs true ([] ++ [y]) = '/' :: y from by simp [joinSegs, intercSlash]]
      unfold filepathDir
      rw [show ('/' :: y : GoStr) = ['/'] ++ y from rfl,
        takeToLastSlash_append_slashFree ['/'] y hy.2.2]
      decide
    | cons z zs' =>
      have hinterc : intercSlash ((z :: zs') ++ [y])
          = intercSlash (z :: zs') ++ '/' :: y :=
        intercSlash_append_singleton (z :: zs') y (by simp)
      rw [show joinSegs true ((z :: zs') ++ [y])
          = '/' :: intercSlash ((z :: zs') ++ [y]) from rfl, hinterc]
      unfold filepathDir
      rw [show ('/' :: (intercSlash (z :: zs') ++ '/' :: y) : GoStr)
          = (('/' :: intercSlash (z :: zs')) ++ ['/']) ++ y from by simp,
        takeToLastSlash_append_slashFree _ y hy.2.2,
        takeToLastSlash_concat_slash]
      have hq : ('/' :: intercSlash (z :: zs')) ++ ['/']
          = '/' :: intercSlash ((z :: zs') ++ [[]]) := by
        rw [intercSlash_append_singleton (z :: zs') [] (by simp)]
        simp
      rw [hq]
      unfold filepathClean
      rw [if_neg (by simp)]
      rw [show isRooted ('/' :: intercSlash ((z :: zs') ++ [[]])) = true from rfl]
      rw [show splitSlash ('/' :: intercSlash ((z :: zs') ++ [[]]))
          = [] :: splitSlash (intercSlash ((z :: zs') ++ [[]])) from by
        simp [splitSlash]]
      rw [splitSlash_intercSlash ((z :: zs') ++ [[]]) (by simp)
        (fun s hs => by
          rcases List.mem_append.mp hs with hs | hs
          · exact (hzs.nice s hs).2.2
          · rw [List.mem_singleton.mp hs]; intro hm; simp at hm)]
      rw [show cleanSegs true ([] :: ((z :: zs') ++ [[]]))
          = cleanSegs true ((z :: zs') ++ [[]]) from by
        unfold cleanSegs
        rw [List.foldl_cons, cleanStep_nil]]
      rw [cleanSegs_canon_concat_nil true (z :: zs') hzs]
  | false =>
    cases zs with
    | nil =>
      rw [show joinSegs false ([] ++ [y]) = y from by simp [joinSegs, intercSlash]]
      unfold filepathDir
      rw [takeToLastSlash_slashFree y hy.2.2]
      decide
    | cons z zs' =>
      have hinterc : intercSlash ((z :: zs') ++ [y])
          = intercSlash (z :: zs') ++ '/' :: y :=
        intercSlash_append_singleton (z :: zs') y (by simp)
      rw [show joinSegs false ((z :: zs') ++ [y])
          = intercSlash ((z :: zs') ++ [y]) from by simp [joinSegs], hinterc]
      unfold filepathDir
      rw [show (intercSlash (z :: zs') ++ '/' :: y : GoStr)
          = (intercSlash (z :: zs') ++ ['/']) ++ y from by simp,
        takeToLastSlash_append_slashFree _ y hy.2.2,
        takeToLastSlash_concat_slash]
      have hq : intercSlash (z :: zs') ++ ['/']
          = intercSlash ((z :: zs') ++ [[]]) := by
        rw [intercSlash_append_singleton (z :: zs') [] (by simp)]
      rw [hq]
      have hz := hzs.nice z (List.mem_cons_self _ _)
      have hnice : ∀ s ∈ (z :: zs') ++ [[]], slashFreeSeg s := fun s hs => by
        rcases List.mem_append.mp hs with hs | hs
        · exact (hzs.nice s hs).2.2
        · rw [List.mem_singleton.mp hs]; intro hm; simp at hm
      unfold filepathClean
      rw [if_neg (by
        intro h
        have := splitSlash_intercSlash ((z :: zs') ++ [[]]) (by simp) hnice
        rw [h] at this
        simp [splitSlash] at this)]
      have hr : isRooted (intercSlash ((z :: zs') ++ [[]])) = false := by
        cases hz0 : z with
        | nil => exact absurd hz0 hz.1
        | cons c z'' =>
          have hc : ¬ c = '/' := fun h => hz.2.2 (by rw [hz0, h]; simp)
          unfold isRooted
          rw [show (((c :: z'') :: zs') ++ [[]] : List GoStr)
              = (c :: z'') :: (zs' ++ [[]]) from rfl]
          rw [intercSlash_head]
          simp [hc]
      rw [hr]
      rw [splitSlash_intercSlash ((z :: zs') ++ [[]]) (by simp) hnice]
      rw [cleanSegs_canon_concat_nil false (z :: zs') hzs]

/-- Appending does not change rootedness of a non-empty path. -/
theorem isRooted_append (dest x : GoStr) (h : dest ≠ []) :
    isRooted (dest ++ x) = isRooted dest := by
  cases dest with
  | nil => exact absurd rfl h
  | cons d t => rfl

/-- `filepath.Clean` on a non-empty path, as reassembly of its canonical
elements. -/
theorem filepathClean_of_ne_nil (p : GoStr) (h : p ≠ []) :
    filepathClean p = joinSegs (isRooted p) (canonSegs p) := by
  unfold filepathClean canonSegs
  rw [if_neg h]

/-- `filepath.Join` with a non-empty first component, as reassembly of the
canonical elements of the raw concatenation. -/
theorem filepathJoin_of_ne_nil (dest name : GoStr) (h : dest ≠ []) :
    filepathJoin dest name
      = joinSegs (isRooted dest)
          (cleanSegs (isRooted dest) (splitSlash (dest ++ '/' :: name))) := by
  unfold filepathJoin
  rw [if_neg h, filepathClean_of_ne_nil _ (by cases dest with
    | nil => exact absurd rfl h
    | cons d t => simp)]
  unfold canonSegs
  rw [isRooted_append dest ('/' :: name) h]

/-- The sanitization check accepted an entry: then the canonical elements of
the destination are a strict prefix of those of the resolved target — the
target is a strict descendant of the destination. -/
theorem check_passed_strict_descendant (dest name : GoStr) (h : dest ≠ [])
    (hch : goHasPrefixL (filepathJoin dest name) (filepathClean dest ++ ['/']) = true) :
    canonSegs dest <+: canonSegs (filepathJoin dest name)
    ∧ (canonSegs dest).length < (canonSegs (filepathJoin dest name)).length := by
  have hxs : CanonList (isRooted dest) (canonSegs dest) := canonSegs_canon dest
  have hys : CanonList (isRooted dest)
      (cleanSegs (isRooted dest) (splitSlash (dest ++ '/' :: name))) :=
    cleanSegs_canon _ _ (splitSlash_slashFree _)
  have hb := joinSegs_prefix_bridge (isRooted dest) (canonSegs dest)
    (cleanSegs (isRooted dest) (splitSlash (dest ++ '/' :: name))) hxs hys
    (by
      unfold goHasPrefixL at hch
      rw [filepathJoin_of_ne_nil dest name h, filepathClean_of_ne_nil dest h] at hch
      exact hch)
  rw [filepathJoin_of_ne_nil dest name h,
    canonSegs_joinSegs (isRooted dest) _ hys]
  exact hb

/-- Unfolding equation of the extractor for an accepted entry. -/
theorem extractTarGz_cons_pos (e : TarEntry) (rest : List TarEntry) (dest : GoStr)
    (hch : goHasPrefixL (filepathJoin dest e.name) (filepathClean dest ++ ['/']) = true) :
    extractTarGz (e :: rest) dest
      = ⟨extractEntryEffects (filepathJoin dest e.name) e.typeflag
          ++ (extractTarGz rest dest).effects,
         (extractTarGz rest dest).error⟩ := by
  simp only [extractTarGz]
  rw [if_pos hch]

/-- Unfolding equation of the extractor for a rejected entry. -/
theorem extractTarGz_cons_neg (e : TarEntry) (rest : List TarEntry) (dest : GoStr)
    (hch : ¬ goHasPrefixL (filepathJoin dest e.name) (filepathClean dest ++ ['/']) = true) :
    extractTarGz (e :: rest) dest = ⟨[], some (invalidTarPathMsg e.name)⟩ := by
  simp only [extractTarGz]
  rw [if_neg hch]

/-- Every filesystem effect of the extractor stays at or below the
destination: its path's canonical elements extend the destination's. -/
theorem extractTarGz_effects_under_dest (dest : GoStr) (h : dest ≠ []) :
    ∀ (entries : List TarEntry), ∀ eff ∈ (extractTarGz entries dest).effects,
      canonSegs dest <+: canonSegs (effectPath eff) := by
  intro entries
  induction entries with
  | nil => intro eff heff; simp [extractTarGz] at heff
  | cons e rest ih =>
    intro eff heff
    by_cases hch : goHasPrefixL (filepathJoin dest e.name)
        (filepathClean dest ++ ['/']) = true
    · rw [extractTarGz_cons_pos e rest dest hch] at heff
      simp only [List.mem_append] at heff
      rcases heff with heff | heff
      · obtain ⟨hpre, hlt⟩ := check_passed_strict_descendant dest e.name h hch
        have hys : CanonList (isRooted dest)
            (cleanSegs (isRooted dest) (splitSlash (dest ++ '/' :: e.name))) :=
          cleanSegs_canon _ _ (splitSlash_slashFree _)
        have htgt : filepathJoin dest e.name
            = joinSegs (isRooted dest)
                (cleanSegs (isRooted dest) (splitSlash (dest ++ '/' :: e.name))) :=
          filepathJoin_of_ne_nil dest e.name h
        obtain ⟨nm, tf, cf⟩ := e
        dsimp only at hch hpre hlt hys htgt
        cases tf with
        | dir =>
          simp only [extractEntryEffects, List.mem_singleton] at heff
          rw [heff]
          exact hpre
        | reg =>
          simp only [extractEntryEffects, List.mem_cons, List.mem_singleton,
            List.not_mem_nil, or_false] at heff
          rcases heff with heff | heff
          · rw [heff]
            show canonSegs dest <+: canonSegs (filepathDir (filepathJoin dest nm))
            rw [htgt, filepathDir_joinSegs _ _ hys (by
              intro hnil
              rw [htgt, canonSegs_joinSegs _ _ hys] at hlt
              rw [hnil] at hlt
              simp at hlt)]
            rw [canonSegs_joinSegs _ _ hys.dropLast]
            rw [htgt, canonSegs_joinSegs _ _ hys] at hpre hlt
            have hdp : List.IsPrefix
                ((cleanSegs (isRooted dest)
                  (splitSlash (dest ++ '/' :: nm))).dropLast)
                (cleanSegs (isRooted dest) (splitSlash (dest ++ '/' :: nm))) := by
              rw [List.dropLast_eq_take]
              exact List.take_prefix _ _
            rcases List.prefix_or_prefix_of_prefix hpre hdp with hc | hc
            · exact hc
            · have h1 := hc.length_le
              rw [List.length_dropLast] at h1
              have h2 : (canonSegs dest).length
                  = ((cleanSegs (isRooted dest)
                      (splitSlash (dest ++ '/' :: nm))).dropLast).length := by
                rw [List.length_dropLast]
                omega
              rw [hc.eq_of_length h2.symm]
          · rw [heff]
            exact hpre
        | symlink => simp [extractEntryEffects] at heff
        | hardlink => simp [extractEntryEffects] at heff
        | other c => simp [extractEntryEffects] at heff
      · exact ih eff heff
    · rw [extractTarGz_cons_neg e rest dest hch] at heff
      simp at heff

/-- An entry whose resolved target escapes the destination makes extraction
fail with the path-sanitization error (possibly raised at an earlier entry
that the conservative check also rejects). -/
theorem extractTarGz_escaping_errors (dest : GoStr) (h : dest ≠ []) :
    ∀ (entries : List TarEntry) (e : TarEntry), e ∈ entries →
      escapesDest dest e.name →
      ∃ n, (extractTarGz entries dest).error = some (invalidTarPathMsg n) := by
  intro entries
  induction entries with
  | nil => intro e hmem _; simp at hmem
  | cons e' rest ih =>
    intro e hmem hesc
    by_cases hch : goHasPrefixL (filepathJoin dest e'.name)
        (filepathClean dest ++ ['/']) = true
    · rw [extractTarGz_cons_pos e' rest dest hch]
      rcases List.mem_cons.mp hmem with rfl | hmem
      · exfalso
        obtain ⟨hpre, hlt⟩ := check_passed_strict_descendant dest e.name h hch
        exact hesc ⟨hpre, fun heq => by rw [heq] at hlt; exact lt_irrefl _ hlt⟩
      · exact ih e hmem hesc
    · rw [extractTarGz_cons_neg e' rest dest hch]
      exact ⟨e'.name, rfl⟩

/-- Claim C1: for a non-empty destination directory, if any tar entry's
resolved target path `filepath.Join(dest, header.Name)` escapes the
destination — its canonical path elements do not strictly extend those of
`dest` — then `ExtractTarGz` fails with the path-sanitization error
`invalid file path in tar: ...`, and every filesystem write of the whole run
(including those before the failure) lies at or below the destination
directory: no file is written outside it. -/
theorem extractTarGz_escaping_entry_rejected (dest : GoStr) (hne : dest ≠ [])
    (entries : List TarEntry) (e : TarEntry) (he : e ∈ entries)
    (hesc : escapesDest dest e.name) :
    (∃ n, (extractTarGz entries dest).error = some (invalidTarPathMsg n))
    ∧ ∀ eff ∈ (extractTarGz entries dest).effects,
        canonSegs dest <+: canonSegs (effectPath eff) :=
  ⟨extractTarGz_escaping_errors dest hne entries e he hesc,
   fun eff heff => extractTarGz_effects_under_dest dest hne entries eff heff⟩

/-- Witness for C1: a single-entry archive `../../etc/passwd` against
destination `/tmp/out` fails with the sanitization error and performs no
write outside the destination. -/
theorem extractTarGz_escaping_entry_rejected_witness :
    (∃ n, (extractTarGz [⟨("../../etc/passwd").data, .reg, false⟩]
        (("/tmp/out").data)).error = some (invalidTarPathMsg n))
    ∧ ∀ eff ∈ (extractTarGz [⟨("../../etc/passwd").data, .reg, false⟩]
        (("/tmp/out").data)).effects,
        canonSegs (("/tmp/out").data) <+: canonSegs (effectPath eff) :=
  extractTarGz_escaping_entry_rejected (("/tmp/out").data) (by decide)
    [⟨("../../etc/passwd").data, .reg, false⟩]
    ⟨("../../etc/passwd").data, .reg, false⟩ (by decide) (by decide)
